import Mathlib

/-! Emergency queue.

A shallow embedding of `attached_assets/emergency_queue.cpp`: the record type
`EmergencyCase`, the comparator `CompareCases`, the global
`std::priority_queue` (a binary heap stored in a vector, with the heap
algorithms `std::push_heap` / `std::pop_heap` in the form libstdc++ gives them),
the CSV log `data/emergency_log.csv` and the seven functions the file exports.

Conventions of the embedding.

* `std::string` and C strings are `String`; text of the log file and of the
  stream being parsed is `List Char`.  A copy into a caller's buffer (`strcpy`,
  `strncpy`) ends at the first NUL character of its source; the capacity of the
  buffers of `get_next_emergency_case` is outside the model.
* `int` and `std::time_t` values are `Int`; the range checks of `std::stoi`
  and `std::stol` are explicit.  Container sizes and counters are `Nat`.
* The global state is passed explicitly (`State`).  The clock value returned by
  `std::time(nullptr)` and the outcome of each attempt to open the log are
  inputs of `add_emergency_case`.
* Loops are structural recursions on a fuel argument that is supplied with a
  bound on the number of iterations; at fuel `0` the loop performs its exit
  action.  The lemmas of the section "Fuel" show the bound is never exceeded.
-/

namespace EmergencyQueue

/-! ## Data model -/

/-- Record `struct EmergencyCase` (lines 11-22). -/
structure EmergencyCase where
  patient_id : String
  name : String
  priority_level : Int
  condition : String
  timestamp : Int
deriving DecidableEq, Inhabited

/-- Constructor `EmergencyCase(pid, n, pri, cond)`: the timestamp is the value
`now` that `std::time(nullptr)` returns at construction. -/
def EmergencyCase.create (pid n : String) (pri : Int) (cond : String) (now : Int) :
    EmergencyCase :=
  { patient_id := pid, name := n, priority_level := pri, condition := cond, timestamp := now }

/-- Comparator `CompareCases::operator()` (lines 25-29). -/
def CompareCases (a b : EmergencyCase) : Bool :=
  decide (a.priority_level > b.priority_level)

/-! ## Heap algorithms of `std::priority_queue` -/

section Heap

variable {α : Type} [Inhabited α]

/-- Loop of `std::__push_heap(first, holeIndex, topIndex, value, comp)`: the
hole climbs while its parent compares below `value`; then `value` is stored. -/
def push_heap_impl (comp : α → α → Bool) (value : α) (topIndex : Nat) :
    Nat → List α → Nat → List α
  | 0, first, holeIndex => first.set holeIndex value
  | fuel + 1, first, holeIndex =>
    let parent := (holeIndex - 1) / 2
    if holeIndex > topIndex ∧ comp (first.getD parent default) value = true then
      push_heap_impl comp value topIndex fuel
        (first.set holeIndex (first.getD parent default)) parent
    else
      first.set holeIndex value

/-- Algorithm `std::push_heap(first, last, comp)` on the whole vector: the last
element is taken out and pushed up from the last index. -/
def push_heap (comp : α → α → Bool) (c : List α) : List α :=
  let value := c.getD (c.length - 1) default
  push_heap_impl comp value 0 (c.length - 1) c (c.length - 1)

/-- First loop of `std::__adjust_heap`: while the hole has two children below
`len`, the child that does not compare below its sibling moves up.  Returns the
vector and the final hole index. -/
def adjust_heap_down (comp : α → α → Bool) (len : Nat) :
    Nat → List α → Nat → List α × Nat
  | 0, first, secondChild => (first, secondChild)
  | fuel + 1, first, holeIndex =>
    if holeIndex < (len - 1) / 2 then
      let secondChild := 2 * (holeIndex + 1)
      let secondChild :=
        if comp (first.getD secondChild default) (first.getD (secondChild - 1) default) = true
        then secondChild - 1 else secondChild
      adjust_heap_down comp len fuel
        (first.set holeIndex (first.getD secondChild default)) secondChild
    else
      (first, holeIndex)

/-- Algorithm `std::__adjust_heap(first, holeIndex, len, value, comp)`. -/
def adjust_heap (comp : α → α → Bool) (first : List α) (holeIndex len : Nat) (value : α) :
    List α :=
  let topIndex := holeIndex
  let down := adjust_heap_down comp len len first holeIndex
  let first := down.1
  let secondChild := down.2
  if len % 2 = 0 ∧ secondChild = (len - 2) / 2 then
    let child := 2 * (secondChild + 1) - 1
    push_heap_impl comp value topIndex child
      (first.set secondChild (first.getD child default)) child
  else
    push_heap_impl comp value topIndex secondChild first secondChild

/-- Algorithm `std::pop_heap(first, last, comp)` on the whole vector: with more
than one element, the last slot receives the root and the former last value is
sifted in from the root over the first `length - 1` slots. -/
def pop_heap (comp : α → α → Bool) (c : List α) : List α :=
  if c.length > 1 then
    let last := c.length - 1
    let value := c.getD last default
    adjust_heap comp (c.set last (c.getD 0 default)) 0 last value
  else c

/-- Member `priority_queue::push`: `c.push_back(x); std::push_heap(...)`. -/
def pq_push (comp : α → α → Bool) (c : List α) (x : α) : List α :=
  push_heap comp (c ++ [x])

/-- Member `priority_queue::pop`: `std::pop_heap(...); c.pop_back()`. -/
def pq_pop (comp : α → α → Bool) (c : List α) : List α :=
  (pop_heap comp c).dropLast

/-- Member `priority_queue::top`: `c.front()`. -/
def pq_top (c : List α) : α := c.getD 0 default

/-- Member `priority_queue::empty`. -/
def pq_empty (c : List α) : Bool := c.isEmpty

/-- Member `priority_queue::size`. -/
def pq_size (c : List α) : Nat := c.length

end Heap

/-! ## Global state -/

/-- Container of the global `emergency_queue` (line 31). -/
abbrev Queue := List EmergencyCase

/-- Global state: the queue and the content of `data/emergency_log.csv`
(`none` when the file does not exist). -/
structure State where
  emergency_queue : Queue
  log : Option (List Char)
deriving DecidableEq

/-- Outcome of the three attempts of `add_emergency_case` to open the log. -/
structure OpenOutcomes where
  /-- Line 51: `std::ofstream log_file(path, std::ios::app)` is open; opening
  for append creates an empty file when none exists. -/
  append_ok : Bool
  /-- Line 53: `std::ofstream new_file(path)` is open. -/
  create_ok : Bool
  /-- Line 57: `log_file.open(path, std::ios::app)` succeeded. -/
  reopen_ok : Bool
deriving DecidableEq

/-- The five output parameters of `get_next_emergency_case`. -/
structure OutParams where
  patient_id : String
  name : String
  priority : Int
  condition : String
  timestamp : Int
deriving DecidableEq

/-! ## Text of numbers -/

/-- Decimal digit character of `d < 10`. -/
def digitChar (d : Nat) : Char := Char.ofNat (48 + d)

/-- Decimal digits of a natural number, most significant first, in front of
`acc`. -/
def natDigits : Nat → Nat → List Char → List Char
  | 0, _, acc => acc
  | fuel + 1, n, acc =>
    if n / 10 = 0 then digitChar (n % 10) :: acc
    else natDigits fuel (n / 10) (digitChar (n % 10) :: acc)

/-- Text that `operator<<` and `std::to_string` produce for a signed integer. -/
def int_to_chars (i : Int) : List Char :=
  if i < 0 then '-' :: natDigits (i.natAbs + 1) i.natAbs []
  else natDigits (i.natAbs + 1) i.natAbs []

/-- Faults of `std::stoi` / `std::stol`. -/
inductive ParseFault where
  | invalid_argument
  | out_of_range
deriving DecidableEq

deriving instance DecidableEq for Except

/-- Predicate `isspace` of the C locale. -/
def isspace (c : Char) : Bool :=
  c == ' ' || c == '\t' || c == '\n' || c == '\x0b' || c == '\x0c' || c == '\r'

/-- Value of a run of decimal digits. -/
def digitsValue (ds : List Char) : Nat :=
  ds.foldl (fun acc c => 10 * acc + (c.toNat - 48)) 0

/-- Conversion of `strtol(s, &end, 10)`: leading white space, an optional
sign, then the longest run of digits; `none` when there is no digit. -/
def strtol (s : List Char) : Option Int :=
  let s := s.dropWhile isspace
  let signed : Bool × List Char :=
    match s with
    | [] => (false, [])
    | c :: t => if c = '-' then (true, t) else if c = '+' then (false, t) else (false, c :: t)
  let ds := signed.2.takeWhile Char.isDigit
  if ds = [] then none
  else if signed.1 then some (-(digitsValue ds : Int)) else some (digitsValue ds : Int)

/-- Function `std::stoi`. -/
def stoi (s : List Char) : Except ParseFault Int :=
  match strtol s with
  | none => .error .invalid_argument
  | some v => if v < -2147483648 ∨ 2147483647 < v then .error .out_of_range else .ok v

/-- Function `std::stol` (64-bit `long`). -/
def stol (s : List Char) : Except ParseFault Int :=
  match strtol s with
  | none => .error .invalid_argument
  | some v =>
    if v < -9223372036854775808 ∨ 9223372036854775807 < v then .error .out_of_range else .ok v

/-! ## The exported functions -/

/-- Function `convert_priority_level` (lines 34-40). -/
def convert_priority_level (priority : String) : Int :=
  if priority = "Emergency" then 1
  else if priority = "Urgent" then 2
  else if priority = "Standard" then 3
  else if priority = "Routine" then 4
  else 4

/-- Header row written by line 55. -/
def log_header : List Char := "patient_id,name,priority_level,condition,timestamp\n".toList

/-- Line written by lines 62-66 for a record. -/
def log_line (ec : EmergencyCase) : List Char :=
  ec.patient_id.toList ++ [','] ++ ec.name.toList ++ [','] ++
    int_to_chars ec.priority_level ++ [','] ++ ec.condition.toList ++ [','] ++
    int_to_chars ec.timestamp ++ ['\n']

/-- Function `add_emergency_case` (lines 45-74).  `now` is the clock value and
`io` the outcome of the attempts to open the log.  No statement of the `try`
block throws in the model, so the result is `true`. -/
def add_emergency_case (s : State) (patient_id name priority condition : String)
    (now : Int) (io : OpenOutcomes) : Bool × State :=
  let pri_level := convert_priority_level priority
  let new_case := EmergencyCase.create patient_id name pri_level condition now
  let queue := pq_push CompareCases s.emergency_queue new_case
  let opened : Bool × Option (List Char) :=
    if io.append_ok then (true, some (s.log.getD []))
    else if io.create_ok then (io.reopen_ok, some log_header)
    else (false, s.log)
  let log :=
    if opened.1 then opened.2.map (fun content => content ++ log_line new_case)
    else opened.2
  (true, { emergency_queue := queue, log := log })

/-- Text that `std::strcpy(dst, src.c_str())` leaves in `dst`: the characters
of `src` before its first NUL. -/
def strcpy (src : String) : String :=
  String.mk (src.toList.takeWhile (fun c => c != '\x00'))

/-- Text that `std::strncpy(dst, src.c_str(), n); dst[n] = 0` leaves in `dst`:
the characters of `src` before its first NUL, `n` of them at most. -/
def strncpy (src : List Char) (n : Nat) : List Char :=
  (src.takeWhile (fun c => c != '\x00')).take n

/-- Function `get_next_emergency_case` (lines 77-92): the result, the output
parameters after the call, and the state after the call. -/
def get_next_emergency_case (s : State) (out : OutParams) : Bool × OutParams × State :=
  if pq_empty s.emergency_queue then (false, out, s)
  else
    let next_case := pq_top s.emergency_queue
    let queue := pq_pop CompareCases s.emergency_queue
    (true,
     { patient_id := strcpy next_case.patient_id, name := strcpy next_case.name,
       priority := next_case.priority_level, condition := strcpy next_case.condition,
       timestamp := next_case.timestamp },
     { s with emergency_queue := queue })

/-- Function `get_emergency_queue_size` (lines 95-97). -/
def get_emergency_queue_size (s : State) : Nat := pq_size s.emergency_queue

/-- Function `std::getline(is, str, delim)` on the unread text of a stream:
`none` when nothing can be extracted, else the characters before the first
`delim` and the text after it. -/
def getline (is : List Char) (delim : Char) : Option (List Char × List Char) :=
  if is = [] then none
  else some (is.takeWhile (fun c => c != delim), (is.dropWhile (fun c => c != delim)).tail)

/-- One field read `std::getline(ss, field, ',')` into a fresh string: the
string stays empty when the read fails. -/
def read_field (ss : List Char) : List Char × List Char :=
  match getline ss ',' with
  | some r => r
  | none => ([], ss)

/-- Loop of `load_emergency_cases_from_csv` (lines 108-125) over the unread
text `file`: the count or the fault thrown, and the queue at that point. -/
def load_loop : Nat → List Char → Queue → Nat → Except ParseFault Nat × Queue
  | 0, _, queue, count => (.ok count, queue)
  | fuel + 1, file, queue, count =>
    match getline file '\n' with
    | none => (.ok count, queue)
    | some (line, file) =>
      let pid := read_field line
      let name := read_field pid.2
      let pri_str := read_field name.2
      let cond := read_field pri_str.2
      let time_str := read_field cond.2
      match stoi pri_str.1 with
      | .error e => (.error e, queue)
      | .ok priority =>
        match stol time_str.1 with
        | .error e => (.error e, queue)
        | .ok ts =>
          let ec : EmergencyCase :=
            { patient_id := String.mk pid.1, name := String.mk name.1,
              priority_level := priority, condition := String.mk cond.1, timestamp := ts }
          load_loop fuel file (pq_push CompareCases queue ec) (count + 1)

/-- Function `load_emergency_cases_from_csv` (lines 100-129): the count
returned, or the fault that escapes, and the state at that point. -/
def load_emergency_cases_from_csv (s : State) : Except ParseFault Nat × State :=
  match s.log with
  | none => (.ok 0, s)
  | some content =>
    let file :=
      match getline content '\n' with
      | some r => r.2
      | none => content
    let r := load_loop file.length file s.emergency_queue 0
    (r.1, { s with emergency_queue := r.2 })

/-- Loop of `clear_emergency_queue` (lines 133-135). -/
def clear_loop : Nat → Queue → Queue
  | 0, queue => queue
  | fuel + 1, queue =>
    if !pq_empty queue then clear_loop fuel (pq_pop CompareCases queue) else queue

/-- Function `clear_emergency_queue` (lines 132-136). -/
def clear_emergency_queue (s : State) : State :=
  { s with emergency_queue := clear_loop (pq_size s.emergency_queue) s.emergency_queue }

/-- Text appended to `result` for one record (lines 151-155). -/
def case_json (ec : EmergencyCase) : List Char :=
  "\x7b\"patient_id\":\"".toList ++ ec.patient_id.toList ++ "\",".toList ++
    "\"name\":\"".toList ++ ec.name.toList ++ "\",".toList ++
    "\"priority_level\":".toList ++ int_to_chars ec.priority_level ++ ",".toList ++
    "\"condition\":\"".toList ++ ec.condition.toList ++ "\",".toList ++
    "\"timestamp\":".toList ++ int_to_chars ec.timestamp ++ "\x7d".toList

/-- Loop of `get_all_emergency_cases` (lines 144-156) over the copy
`temp_queue`. -/
def get_all_loop : Nat → Queue → List Char → Bool → List Char
  | 0, _, result, _ => result
  | fuel + 1, temp_queue, result, first =>
    if !pq_empty temp_queue then
      let ec := pq_top temp_queue
      let temp_queue := pq_pop CompareCases temp_queue
      let result := if !first then result ++ [','] else result
      get_all_loop fuel temp_queue (result ++ case_json ec) false
    else result

/-- Function `get_all_emergency_cases` (lines 139-161): the text left in
`output` (the text of `result` before its first NUL, at most `max_size - 1`
characters) and the state after the call. -/
def get_all_emergency_cases (s : State) (max_size : Nat) : List Char × State :=
  let temp_queue := s.emergency_queue
  let result := get_all_loop (pq_size temp_queue) temp_queue ['['] true
  let result := result ++ [']']
  (strncpy result (max_size - 1), s)

/-- Function `get_priority_name` (lines 164-175): the text left in `output`. -/
def get_priority_name (priority : Int) (max_size : Nat) : List Char :=
  let pname :=
    if priority = 1 then "Emergency"
    else if priority = 2 then "Urgent"
    else if priority = 3 then "Standard"
    else if priority = 4 then "Routine"
    else "Unknown"
  pname.toList.take (max_size - 1)

/-! ## Specification predicates and drivers -/

/-- Heap property of the first `len` slots of a vector, as `std::is_heap`
states it: no slot compares above its parent `(i - 1) / 2`. -/
def IsHeapUpTo {α : Type} [Inhabited α] (comp : α → α → Bool) (len : Nat) (c : List α) : Prop :=
  ∀ i, i < len → 0 < i → comp (c.getD ((i - 1) / 2) default) (c.getD i default) = false

instance {α : Type} [Inhabited α] (comp : α → α → Bool) (len : Nat) (c : List α) :
    Decidable (IsHeapUpTo comp len c) := by
  unfold IsHeapUpTo; infer_instance

/-- Class invariant of `std::priority_queue`: the container is a heap. -/
def IsHeap {α : Type} [Inhabited α] (comp : α → α → Bool) (c : List α) : Prop :=
  IsHeapUpTo comp c.length c

instance {α : Type} [Inhabited α] (comp : α → α → Bool) (c : List α) :
    Decidable (IsHeap comp c) := by
  unfold IsHeap; infer_instance

/-- Arguments of one call of `add_emergency_case`, with the clock value and the
outcome of the attempts to open the log at that call. -/
structure AddCall where
  patient_id : String
  name : String
  priority : String
  condition : String
  now : Int
  io : OpenOutcomes
deriving DecidableEq

/-- The record that line 48 constructs for a call. -/
def AddCall.record (a : AddCall) : EmergencyCase :=
  EmergencyCase.create a.patient_id a.name (convert_priority_level a.priority) a.condition a.now

/-- One call of `add_emergency_case`. -/
def add_call (s : State) (a : AddCall) : Bool × State :=
  add_emergency_case s a.patient_id a.name a.priority a.condition a.now a.io

/-- Successive calls of `add_emergency_case`: the results and the final state. -/
def add_calls : State → List AddCall → List Bool × State
  | s, [] => ([], s)
  | s, a :: rest =>
    let r := add_call s a
    let t := add_calls r.2 rest
    (r.1 :: t.1, t.2)

/-- An event in the life of the global state: a call of one of the exported
functions that act on it, or the environment replacing the log file. -/
inductive Operation where
  | add (a : AddCall)
  | get_next (out : OutParams)
  | load
  | clear
  | get_all (max_size : Nat)
  | replace_log (log : Option (List Char))
deriving DecidableEq

/-- State after one event (after a fault of the load, the state at the fault). -/
def step (s : State) : Operation → State
  | .add a => (add_call s a).2
  | .get_next out => (get_next_emergency_case s out).2.2
  | .load => (load_emergency_cases_from_csv s).2
  | .clear => clear_emergency_queue s
  | .get_all max_size => (get_all_emergency_cases s max_size).2
  | .replace_log log => { s with log := log }

/-- State after a sequence of events. -/
def run (s : State) (ops : List Operation) : State := ops.foldl step s

/-- Calls of `get_next_emergency_case` repeated until one returns `false`: the
output parameters after each successful call, in order.  `none` when the fuel
ends before a call returns `false`. -/
def pop_until_empty : Nat → State → OutParams → Option (List OutParams)
  | 0, _, _ => none
  | fuel + 1, s, out =>
    let r := get_next_emergency_case s out
    if r.1 then (pop_until_empty fuel r.2.2 r.2.1).map (fun rest => r.2.1 :: rest)
    else some []

/-- The first `k` of successive calls of `get_next_emergency_case`: the results,
the output parameters and the state after the last call. -/
def pop_times : Nat → State → OutParams → List Bool × OutParams × State
  | 0, s, out => ([], out, s)
  | k + 1, s, out =>
    let r := get_next_emergency_case s out
    let t := pop_times k r.2.2 r.2.1
    (r.1 :: t.1, t.2)

/-- Output parameters that `get_next_emergency_case` writes for a record (lines
85-89): the two numbers, and the C-string copy of each text field. -/
def OutParams.ofCase (ec : EmergencyCase) : OutParams :=
  { patient_id := strcpy ec.patient_id, name := strcpy ec.name, priority := ec.priority_level,
    condition := strcpy ec.condition, timestamp := ec.timestamp }

/-- Output parameters that hold the five fields of a record as they are. -/
def OutParams.verbatim (ec : EmergencyCase) : OutParams :=
  { patient_id := ec.patient_id, name := ec.name, priority := ec.priority_level,
    condition := ec.condition, timestamp := ec.timestamp }

/-- A string without NUL character. -/
def NulFree (t : String) : Prop := '\x00' ∉ t.toList

instance (t : String) : Decidable (NulFree t) := by
  unfold NulFree; infer_instance

/-- A record whose three text fields hold no NUL character. -/
def EmergencyCase.NulFree (ec : EmergencyCase) : Prop :=
  EmergencyQueue.NulFree ec.patient_id ∧ EmergencyQueue.NulFree ec.name ∧
    EmergencyQueue.NulFree ec.condition

instance (ec : EmergencyCase) : Decidable ec.NulFree := by
  unfold EmergencyCase.NulFree; infer_instance

/-- A string without comma and without newline. -/
def CleanText (t : String) : Prop := ',' ∉ t.toList ∧ '\n' ∉ t.toList

instance (t : String) : Decidable (CleanText t) := by
  unfold CleanText; infer_instance

/-- A string without comma. -/
def CommaFree (t : String) : Prop := ',' ∉ t.toList

instance (t : String) : Decidable (CommaFree t) := by
  unfold CommaFree; infer_instance

/-- Range of `std::time_t` (64-bit). -/
def IsTimeT (t : Int) : Prop := -9223372036854775808 ≤ t ∧ t ≤ 9223372036854775807

instance (t : Int) : Decidable (IsTimeT t) := by
  unfold IsTimeT; infer_instance

/-- Range of `int` (32-bit). -/
def IsInt32 (t : Int) : Prop := -2147483648 ≤ t ∧ t ≤ 2147483647

instance (t : Int) : Decidable (IsInt32 t) := by
  unfold IsInt32; infer_instance

/-! ## Views of the loops used by the statements -/

/-- Body of the load loop for one line (lines 109-122): the record built from
the line, or the fault of `std::stoi` / `std::stol`. -/
def parse_line (line : List Char) : Except ParseFault EmergencyCase :=
  let pid := read_field line
  let name := read_field pid.2
  let pri_str := read_field name.2
  let cond := read_field pri_str.2
  let time_str := read_field cond.2
  match stoi pri_str.1 with
  | .error e => .error e
  | .ok priority =>
    match stol time_str.1 with
    | .error e => .error e
    | .ok ts =>
      .ok { patient_id := String.mk pid.1, name := String.mk name.1,
            priority_level := priority, condition := String.mk cond.1, timestamp := ts }

/-- Third field of a line, as the load loop reads it into `pri_str`. -/
def priority_field (line : List Char) : List Char :=
  (read_field (read_field (read_field line).2).2).1

/-- Fifth field of a line, as the load loop reads it into `time_str`. -/
def timestamp_field (line : List Char) : List Char :=
  (read_field (read_field (read_field (read_field (read_field line).2).2).2).2).1

/-- Number of comma-separated fields of a line. -/
def field_count (line : List Char) : Nat := line.count ',' + 1

/-- Values of `ec` taken at line 145 by the loop of `get_all_emergency_cases`,
in order: the records the function enumerates. -/
def get_all_cases : Nat → Queue → List EmergencyCase
  | 0, _ => []
  | fuel + 1, temp_queue =>
    if !pq_empty temp_queue then
      pq_top temp_queue :: get_all_cases fuel (pq_pop CompareCases temp_queue)
    else []

/-- Text of a sequence of records as lines 148-155 append it: the objects of
`case_json`, a comma before each but the first when `first` holds. -/
def json_items : Bool → List EmergencyCase → List Char
  | _, [] => []
  | first, ec :: rest =>
    (if first then [] else [',']) ++ case_json ec ++ json_items false rest

/-- Every queued record has its priority level in 1..4. -/
def ValidPriorities (q : Queue) : Prop :=
  ∀ r ∈ q, 1 ≤ r.priority_level ∧ r.priority_level ≤ 4

instance (q : Queue) : Decidable (ValidPriorities q) := by
  unfold ValidPriorities; infer_instance

/-- A decimal numeral: one or more digits, after an optional minus sign. -/
def isDecimal (t : List Char) : Bool :=
  match t with
  | [] => false
  | c :: ds => if c = '-' then !ds.isEmpty && ds.all Char.isDigit else (c :: ds).all Char.isDigit

/-- Value of a decimal numeral. -/
def decimalValue (t : List Char) : Int :=
  match t with
  | [] => 0
  | c :: ds => if c = '-' then -(digitsValue ds : Int) else (digitsValue (c :: ds) : Int)

/-- The five fields of a record line of the log. -/
structure RecordLine where
  patient_id : List Char
  name : List Char
  priority : List Char
  condition : List Char
  timestamp : List Char
deriving DecidableEq

/-- Text of a record line, without its newline. -/
def RecordLine.text (l : RecordLine) : List Char :=
  l.patient_id ++ ',' :: (l.name ++ ',' :: (l.priority ++ ',' :: (l.condition ++ ',' ::
    l.timestamp)))

/-- A well-formed record line: five fields, none holding a comma or a newline,
with a decimal priority and a decimal timestamp. -/
def RecordLine.WellFormed (l : RecordLine) : Prop :=
  (',' ∉ l.patient_id ∧ '\n' ∉ l.patient_id) ∧ (',' ∉ l.name ∧ '\n' ∉ l.name) ∧
  (',' ∉ l.condition ∧ '\n' ∉ l.condition) ∧
  isDecimal l.priority = true ∧ isDecimal l.timestamp = true

instance (l : RecordLine) : Decidable l.WellFormed := by
  unfold RecordLine.WellFormed; infer_instance

/-- The numbers of a record line fit `int` and `long`. -/
def RecordLine.InRange (l : RecordLine) : Prop :=
  IsInt32 (decimalValue l.priority) ∧ IsTimeT (decimalValue l.timestamp)

instance (l : RecordLine) : Decidable l.InRange := by
  unfold RecordLine.InRange; infer_instance

/-- The record a well-formed line stands for. -/
def RecordLine.record (l : RecordLine) : EmergencyCase :=
  { patient_id := String.mk l.patient_id, name := String.mk l.name,
    priority_level := decimalValue l.priority, condition := String.mk l.condition,
    timestamp := decimalValue l.timestamp }

/-- Text of a log: a first line and record lines, each ended by a newline. -/
def log_text (first : List Char) (lines : List RecordLine) : List Char :=
  first ++ '\n' :: (lines.map (fun l => l.text ++ ['\n'])).flatten

/-- Position at the start of a line: nothing before it, or a newline. -/
def AtLineStart (before : List Char) : Prop :=
  before = [] ∨ before.getLast? = some '\n'

instance (before : List Char) : Decidable (AtLineStart before) := by
  unfold AtLineStart; infer_instance

/-- The text begins, after white space and an optional sign, with a digit:
what `strtol` needs to convert anything. -/
def begins_with_number (t : List Char) : Bool :=
  match t.dropWhile isspace with
  | [] => false
  | c :: rest =>
    if c = '-' ∨ c = '+' then
      match rest with
      | [] => false
      | d :: _ => d.isDigit
    else c.isDigit

/-! ## Sample inputs -/

/-- Outcome in which every attempt to open the log succeeds. -/
def all_open : OpenOutcomes := ⟨true, true, true⟩

/-- Outcome in which no attempt to open the log succeeds. -/
def none_open : OpenOutcomes := ⟨false, false, false⟩

/-- Two admissions: an emergency and a routine case. -/
def sample_calls : List AddCall :=
  [⟨"P1", "Alice", "Emergency", "chest pain", 1700000000, all_open⟩,
   ⟨"P2", "Bob", "Routine", "checkup", 1700000001, all_open⟩]

/-- Events: the two sample admissions, a load of the log they wrote, one pop. -/
def sample_ops : List Operation :=
  [.add ⟨"P1", "Alice", "Emergency", "chest pain", 1700000000, all_open⟩,
   .add ⟨"P2", "Bob", "Routine", "checkup", 1700000001, all_open⟩,
   .load, .get_next ⟨"", "", 0, "", 0⟩]

/-- A queue holding the two sample records. -/
def sample_queue : Queue :=
  [⟨"P1", "Alice", 1, "chest pain", 1700000000⟩, ⟨"P2", "Bob", 4, "checkup", 1700000001⟩]

/-- Initial content of the five output parameters in the samples. -/
def sample_out : OutParams := ⟨"a", "b", 7, "c", 9⟩

/-- Four admissions with the same priority label. -/
def tied_calls : List AddCall :=
  [⟨"A", "Ann", "Urgent", "burn", 1700000001, all_open⟩,
   ⟨"B", "Ben", "Urgent", "burn", 1700000002, all_open⟩,
   ⟨"C", "Cat", "Urgent", "burn", 1700000003, all_open⟩,
   ⟨"D", "Dan", "Urgent", "burn", 1700000004, all_open⟩]

/-- A well-formed record line with priority 2. -/
def sample_line : RecordLine :=
  ⟨"P3".toList, "Carol".toList, "2".toList, "fracture".toList, "1700000002".toList⟩

/-- A record line with five fields and decimal numbers whose priority exceeds
the range of `int`. -/
def wide_line : RecordLine :=
  ⟨"a".toList, "b".toList, "2147483648".toList, "c".toList, "7".toList⟩

/-- A record with clean text. -/
def sample_case : EmergencyCase := ⟨"P1", "Alice", 1, "chest pain", 1700000000⟩

/-- Events after which the queue holds one record whose patient id holds a NUL
character: the log is replaced and loaded. -/
def nul_ops : List Operation :=
  [.replace_log (some "h\na\x00b,n,1,c,5\n".toList), .load]

/-- A log that holds a header row and one record line. -/
def sample_log : List Char := log_header ++ "P0,Zed,3,cough,1690000000\n".toList

/-- The state with an empty queue and no log file. -/
def fresh_state : State := ⟨[], none⟩

end EmergencyQueue

namespace EmergencyQueue

/-! ## Text of numbers: printing and parsing agree -/

theorem digitChar_facts : ∀ d, d < 10 →
    (digitChar d).isDigit = true ∧ (digitChar d).toNat - 48 = d ∧
    digitChar d ≠ ',' ∧ digitChar d ≠ '\n' ∧ isspace (digitChar d) = false ∧
    digitChar d ≠ '-' ∧ digitChar d ≠ '+' := by
  decide

theorem natDigits_spec (fuel n : Nat) (acc : List Char) (h : n < fuel) :
    ∃ ds, natDigits fuel n acc = ds ++ acc ∧ ds ≠ [] ∧
      (∀ c ∈ ds, c.isDigit = true ∧ c ≠ ',' ∧ c ≠ '\n' ∧ isspace c = false ∧
        c ≠ '-' ∧ c ≠ '+') ∧
      digitsValue ds = n := by
  induction fuel generalizing n acc with
  | zero => omega
  | succ k ih =>
    have hd := digitChar_facts (n % 10) (Nat.mod_lt _ (by decide))
    simp only [natDigits]
    split
    · rename_i h0
      refine ⟨[digitChar (n % 10)], rfl, by simp, ?_, ?_⟩
      · intro c hc
        simp only [List.mem_singleton] at hc
        subst hc
        exact ⟨hd.1, hd.2.2.1, hd.2.2.2.1, hd.2.2.2.2.1, hd.2.2.2.2.2.1, hd.2.2.2.2.2.2⟩
      · simp only [digitsValue, List.foldl_cons, List.foldl_nil, hd.2.1]
        omega
    · rename_i h0
      obtain ⟨ds, e, hne, hall, hv⟩ := ih (n / 10) (digitChar (n % 10) :: acc) (by omega)
      refine ⟨ds ++ [digitChar (n % 10)], by rw [e]; simp, by simp, ?_, ?_⟩
      · intro c hc
        rcases List.mem_append.1 hc with hc | hc
        · exact hall c hc
        · simp only [List.mem_singleton] at hc
          subst hc
          exact ⟨hd.1, hd.2.2.1, hd.2.2.2.1, hd.2.2.2.2.1, hd.2.2.2.2.2.1, hd.2.2.2.2.2.2⟩
      · unfold digitsValue at hv ⊢
        rw [List.foldl_append, hv]
        simp only [List.foldl_cons, List.foldl_nil, hd.2.1]
        omega

/-- The text of an integer contains neither a comma nor a newline. -/
theorem int_to_chars_clean (i : Int) :
    ∀ c ∈ int_to_chars i, c ≠ ',' ∧ c ≠ '\n' := by
  obtain ⟨ds, e, -, hall, -⟩ := natDigits_spec (i.natAbs + 1) i.natAbs [] (by omega)
  intro c hc
  unfold int_to_chars at hc
  rw [e] at hc
  simp only [List.append_nil] at hc
  split at hc
  · rcases List.mem_cons.1 hc with hc | hc
    · subst hc; exact ⟨by decide, by decide⟩
    · exact ⟨(hall c hc).2.1, (hall c hc).2.2.1⟩
  · exact ⟨(hall c hc).2.1, (hall c hc).2.2.1⟩

theorem takeWhile_eq_self {α : Type} (p : α → Bool) (l : List α) (h : ∀ x ∈ l, p x = true) :
    l.takeWhile p = l := by
  induction l with
  | nil => rfl
  | cons a t ih =>
    have ha := h a (List.mem_cons_self _ _)
    rw [List.takeWhile_cons, ha]
    simp only [if_true]
    rw [ih (fun x hx => h x (List.mem_cons_of_mem _ hx))]

/-- Parsing the text of an integer gives the integer back. -/
theorem strtol_int_to_chars (i : Int) : strtol (int_to_chars i) = some i := by
  obtain ⟨ds, e, hne, hall, hv⟩ := natDigits_spec (i.natAbs + 1) i.natAbs [] (by omega)
  have htw : ds.takeWhile Char.isDigit = ds := takeWhile_eq_self _ _ (fun c hc => (hall c hc).1)
  unfold int_to_chars
  rw [e, List.append_nil]
  by_cases hneg : i < 0
  · rw [if_pos hneg]
    unfold strtol
    have h1 : List.dropWhile isspace ('-' :: ds) = '-' :: ds := by
      rw [List.dropWhile_cons]; simp [show isspace '-' = false by decide]
    simp only [h1, if_true, htw, if_neg hne, hv]
    congr 1
    omega
  · rw [if_neg hneg]
    unfold strtol
    obtain ⟨c, t, rfl⟩ := List.exists_cons_of_ne_nil hne
    have hc := hall c (List.mem_cons_self _ _)
    have h1 : List.dropWhile isspace (c :: t) = c :: t := by
      rw [List.dropWhile_cons]; simp [hc.2.2.2.1]
    simp only [h1, if_neg hc.2.2.2.2.1, if_neg hc.2.2.2.2.2, htw, if_neg hne, hv]
    simp only [Bool.false_eq_true, if_false]
    congr 1
    omega

/-! ## Vector lemmas -/

section VectorLemmas

variable {α : Type}

theorem getD_set_eq (c : List α) (i j : Nat) (a d : α) :
    (c.set i a).getD j d = if i = j ∧ i < c.length then a else c.getD j d := by
  simp only [List.getD_eq_getElem?_getD, List.getElem?_set]
  by_cases h : i = j
  · subst h
    by_cases h2 : i < c.length
    · simp [h2]
    · simp [h2, List.getElem?_eq_none (Nat.le_of_not_lt h2)]
  · simp [h]

theorem getD_append_left (c t : List α) (j : Nat) (d : α) (h : j < c.length) :
    (c ++ t).getD j d = c.getD j d := by
  simp [List.getD_eq_getElem?_getD, List.getElem?_append_left h]

theorem getD_dropLast (c : List α) (j : Nat) (d : α) (h : j < c.length - 1) :
    c.dropLast.getD j d = c.getD j d := by
  have h2 : j < c.length := by omega
  simp [List.getD_eq_getElem?_getD, List.dropLast_eq_take, List.getElem?_take, h,
    List.getElem?_eq_getElem h2]

/-- Replacing slot `i` by `a` trades the old content of the slot for `a`. -/
theorem perm_cons_set (c : List α) (i : Nat) (a d : α) (h : i < c.length) :
    (a :: c).Perm (c.getD i d :: c.set i a) := by
  induction c generalizing i with
  | nil => simp at h
  | cons x xs ih =>
    cases i with
    | zero => exact List.Perm.swap x a xs
    | succ k =>
      have hk : k < xs.length := by simpa using h
      have h1 := ih k hk
      simp only [List.set_cons_succ, List.getD_cons_succ]
      calc (a :: x :: xs).Perm (x :: a :: xs) := List.Perm.swap x a xs
        _ |>.Perm (x :: xs.getD k d :: xs.set k a) := List.Perm.cons x h1
        _ |>.Perm (xs.getD k d :: x :: xs.set k a) := List.Perm.swap _ _ _

/-- Moving the content of slot `j` into the hole `i` and the pending value
into `j` permutes the vector with the pending value in the hole. -/
theorem perm_move_hole (c : List α) (i j : Nat) (v d : α) (hij : i ≠ j)
    (hi : i < c.length) (hj : j < c.length) :
    ((c.set i (c.getD j d)).set j v).Perm (c.set i v) := by
  have h1 := perm_cons_set (c.set i (c.getD j d)) j v d (by simpa using hj)
  have h2 := perm_cons_set c i (c.getD j d) d hi
  have h3 := perm_cons_set c i v d hi
  have e : (c.set i (c.getD j d)).getD j d = c.getD j d := by
    rw [getD_set_eq]; simp [hij]
  rw [e] at h1
  have h4 : (c.getD i d :: c.getD j d :: (c.set i (c.getD j d)).set j v).Perm
      (c.getD i d :: c.getD j d :: c.set i v) := by
    calc (c.getD i d :: c.getD j d :: (c.set i (c.getD j d)).set j v).Perm
          (c.getD i d :: v :: c.set i (c.getD j d)) := List.Perm.cons _ h1.symm
      _ |>.Perm (v :: c.getD i d :: c.set i (c.getD j d)) := List.Perm.swap _ _ _
      _ |>.Perm (v :: c.getD j d :: c) := List.Perm.cons _ h2.symm
      _ |>.Perm (c.getD j d :: v :: c) := List.Perm.swap _ _ _
      _ |>.Perm (c.getD j d :: c.getD i d :: c.set i v) := List.Perm.cons _ h3
      _ |>.Perm (c.getD i d :: c.getD j d :: c.set i v) := List.Perm.swap _ _ _
  exact (List.perm_cons _).1 ((List.perm_cons _).1 h4)

theorem set_getD_self (c : List α) (i : Nat) (d : α) (h : i < c.length) :
    c.set i (c.getD i d) = c := by
  apply List.ext_getElem?
  intro j
  rw [List.getElem?_set]
  by_cases hij : i = j
  · subst hij
    simp [h, List.getD_eq_getElem?_getD, List.getElem?_eq_getElem h]
  · simp [hij]

theorem eq_dropLast_append (c : List α) (d : α) (h : c ≠ []) :
    c = c.dropLast ++ [c.getD (c.length - 1) d] := by
  have hl : c.length - 1 < c.length := by
    have := List.length_pos.2 h
    omega
  have h2 : c.getD (c.length - 1) d = c.getLast h := by
    rw [List.getLast_eq_getElem]
    simp [List.getD_eq_getElem?_getD, List.getElem?_eq_getElem hl]
  rw [h2, List.dropLast_append_getLast]

end VectorLemmas

/-! ## The climbing loop -/

section HeapLemmas

variable {α : Type} [Inhabited α] (comp : α → α → Bool) (key : α → Int)

theorem push_heap_impl_length (v : α) (top : Nat) (fuel : Nat) (c : List α) (hole : Nat) :
    (push_heap_impl comp v top fuel c hole).length = c.length := by
  induction fuel generalizing c hole with
  | zero => simp [push_heap_impl]
  | succ n ih =>
    simp only [push_heap_impl]
    split
    · rw [ih]; simp
    · simp

theorem push_heap_impl_above (v : α) (top : Nat) (fuel : Nat) (c : List α) (hole j : Nat)
    (hj : hole < j) :
    (push_heap_impl comp v top fuel c hole).getD j default = c.getD j default := by
  induction fuel generalizing c hole with
  | zero =>
    simp only [push_heap_impl, getD_set_eq]
    rw [if_neg (by omega)]
  | succ n ih =>
    simp only [push_heap_impl]
    split
    · rw [ih _ _ (by omega), getD_set_eq, if_neg (by omega)]
    · rw [getD_set_eq, if_neg (by omega)]

theorem push_heap_impl_perm (v : α) (fuel : Nat) (c : List α) (hole : Nat)
    (hh : hole < c.length) :
    (push_heap_impl comp v 0 fuel c hole).Perm (c.set hole v) := by
  induction fuel generalizing c hole with
  | zero => simp [push_heap_impl]
  | succ n ih =>
    simp only [push_heap_impl]
    split
    · rename_i hc
      have hp : (hole - 1) / 2 < hole := by omega
      have h1 := ih (c.set hole (c.getD ((hole - 1) / 2) default)) ((hole - 1) / 2)
        (by simp; omega)
      exact h1.trans (perm_move_hole c hole ((hole - 1) / 2) v default (by omega) hh (by omega))
    · exact List.Perm.refl _

/-- The climbing loop ends in a heap when it starts from a vector that is a
heap apart from the hole, with the pending value not above the children of the
hole and the parent of the hole not above them either. -/
theorem push_heap_impl_heap (hk : ∀ a b, comp a b = true ↔ key b < key a)
    (v : α) (len : Nat) (fuel : Nat) (c : List α) (hole : Nat)
    (hf : hole ≤ fuel) (hh : hole < len) (hlen : len ≤ c.length)
    (hA : ∀ i, i < len → 0 < i → i ≠ hole →
      key (c.getD ((i - 1) / 2) default) ≤ key (c.getD i default))
    (hB : ∀ i, i < len → 0 < i → (i - 1) / 2 = hole → key v ≤ key (c.getD i default))
    (hC : ∀ i, i < len → 0 < i → (i - 1) / 2 = hole → 0 < hole →
      key (c.getD ((hole - 1) / 2) default) ≤ key (c.getD i default)) :
    ∀ i, i < len → 0 < i →
      key ((push_heap_impl comp v 0 fuel c hole).getD ((i - 1) / 2) default) ≤
        key ((push_heap_impl comp v 0 fuel c hole).getD i default) := by
  have final : ∀ (c : List α) (hole : Nat), hole < len → len ≤ c.length →
      (∀ i, i < len → 0 < i → i ≠ hole →
        key (c.getD ((i - 1) / 2) default) ≤ key (c.getD i default)) →
      (∀ i, i < len → 0 < i → (i - 1) / 2 = hole → key v ≤ key (c.getD i default)) →
      (0 < hole → key (c.getD ((hole - 1) / 2) default) ≤ key v) →
      ∀ i, i < len → 0 < i →
        key ((c.set hole v).getD ((i - 1) / 2) default) ≤
          key ((c.set hole v).getD i default) := by
    intro c hole hh hlen hA hB hP i hi hi0
    rw [getD_set_eq, getD_set_eq]
    by_cases h1 : hole = i
    · have hn : ¬ (hole = (i - 1) / 2 ∧ hole < c.length) := by omega
      have hy : hole = i ∧ hole < c.length := ⟨h1, by omega⟩
      rw [if_neg hn, if_pos hy, ← h1]
      exact hP (by omega)
    · have hn : ¬ (hole = i ∧ hole < c.length) := fun h => h1 h.1
      rw [if_neg hn]
      by_cases h2 : hole = (i - 1) / 2
      · have hy : hole = (i - 1) / 2 ∧ hole < c.length := ⟨h2, by omega⟩
        rw [if_pos hy]
        exact hB i hi hi0 h2.symm
      · have hn2 : ¬ (hole = (i - 1) / 2 ∧ hole < c.length) := fun h => h2 h.1
        rw [if_neg hn2]
        exact hA i hi hi0 (fun h => h1 h.symm)
  induction fuel generalizing c hole with
  | zero =>
    simp only [push_heap_impl]
    exact final c hole hh hlen hA hB (by omega)
  | succ n ih =>
    simp only [push_heap_impl]
    split
    · rename_i hc
      obtain ⟨h0, hcmp⟩ := hc
      have hlt : key v < key (c.getD ((hole - 1) / 2) default) := (hk _ _).1 hcmp
      have hp : (hole - 1) / 2 < hole := by omega
      apply ih
      · omega
      · omega
      · simpa using hlen
      · intro i hi hi0 hne
        rw [getD_set_eq, getD_set_eq]
        by_cases h1 : hole = i
        · have hn : ¬ (hole = (i - 1) / 2 ∧ hole < c.length) := by omega
          have hy : hole = i ∧ hole < c.length := ⟨h1, by omega⟩
          rw [if_neg hn, if_pos hy, ← h1]
        · have hn : ¬ (hole = i ∧ hole < c.length) := fun h => h1 h.1
          rw [if_neg hn]
          by_cases h2 : hole = (i - 1) / 2
          · have hy : hole = (i - 1) / 2 ∧ hole < c.length := ⟨h2, by omega⟩
            rw [if_pos hy]
            exact hC i hi hi0 h2.symm h0
          · have hn2 : ¬ (hole = (i - 1) / 2 ∧ hole < c.length) := fun h => h2 h.1
            rw [if_neg hn2]
            exact hA i hi hi0 (fun h => h1 h.symm)
      · intro i hi hi0 hpar
        rw [getD_set_eq]
        by_cases h1 : hole = i
        · have hy : hole = i ∧ hole < c.length := ⟨h1, by omega⟩
          rw [if_pos hy]; omega
        · have hn : ¬ (hole = i ∧ hole < c.length) := fun h => h1 h.1
          rw [if_neg hn]
          have := hA i hi hi0 (fun h => h1 h.symm)
          rw [hpar] at this
          omega
      · intro i hi hi0 hpar hp0
        have hgp : key (c.getD (((hole - 1) / 2 - 1) / 2) default) ≤
            key (c.getD ((hole - 1) / 2) default) := hA _ (by omega) hp0 (by omega)
        have hn0 : ¬ (hole = ((hole - 1) / 2 - 1) / 2 ∧ hole < c.length) := by omega
        rw [getD_set_eq, getD_set_eq, if_neg hn0]
        by_cases h1 : hole = i
        · have hy : hole = i ∧ hole < c.length := ⟨h1, by omega⟩
          rw [if_pos hy]; exact hgp
        · have hn : ¬ (hole = i ∧ hole < c.length) := fun h => h1 h.1
          rw [if_neg hn]
          have := hA i hi hi0 (fun h => h1 h.symm)
          rw [hpar] at this
          omega
    · rename_i hc
      apply final c hole hh hlen hA hB
      intro h0
      have : ¬ comp (c.getD ((hole - 1) / 2) default) v = true := fun h => hc ⟨h0, h⟩
      rw [hk] at this
      omega

/-! ## The descending loop -/

/-- The descending loop keeps the first `len` slots a heap, stops at a hole
without two children, and only moves contents along the path of the hole. -/
theorem adjust_heap_down_spec (hk : ∀ a b, comp a b = true ↔ key b < key a)
    (len : Nat) (fuel : Nat) (c : List α) (hole : Nat)
    (hf : len ≤ fuel + hole) (hh : hole < len) (hlen : len ≤ c.length)
    (hH : ∀ i, i < len → 0 < i →
      key (c.getD ((i - 1) / 2) default) ≤ key (c.getD i default)) :
    (adjust_heap_down comp len fuel c hole).1.length = c.length ∧
    hole ≤ (adjust_heap_down comp len fuel c hole).2 ∧
    (adjust_heap_down comp len fuel c hole).2 < len ∧
    ¬ (adjust_heap_down comp len fuel c hole).2 < (len - 1) / 2 ∧
    (∀ i, i < len → 0 < i →
      key ((adjust_heap_down comp len fuel c hole).1.getD ((i - 1) / 2) default) ≤
        key ((adjust_heap_down comp len fuel c hole).1.getD i default)) ∧
    (∀ v, ((adjust_heap_down comp len fuel c hole).1.set
      (adjust_heap_down comp len fuel c hole).2 v).Perm (c.set hole v)) ∧
    (∀ j, len ≤ j →
      (adjust_heap_down comp len fuel c hole).1.getD j default = c.getD j default) := by
  induction fuel generalizing c hole with
  | zero => omega
  | succ n ih =>
    simp only [adjust_heap_down]
    split
    · rename_i hlt
      have hchoice : ∃ sc, sc = (if comp (c.getD (2 * (hole + 1)) default)
            (c.getD (2 * (hole + 1) - 1) default) = true
          then 2 * (hole + 1) - 1 else 2 * (hole + 1)) ∧
          (sc = 2 * hole + 1 ∨ sc = 2 * hole + 2) ∧
          key (c.getD sc default) ≤ key (c.getD (2 * hole + 1) default) ∧
          key (c.getD sc default) ≤ key (c.getD (2 * hole + 2) default) := by
        refine ⟨_, rfl, ?_⟩
        have e1 : 2 * (hole + 1) - 1 = 2 * hole + 1 := by omega
        have e2 : 2 * (hole + 1) = 2 * hole + 2 := by omega
        rw [e1, e2]
        by_cases hcmp : comp (c.getD (2 * hole + 2) default) (c.getD (2 * hole + 1) default) = true
        · rw [if_pos hcmp]
          have := (hk _ _).1 hcmp
          exact ⟨Or.inl rfl, le_refl _, by omega⟩
        · rw [if_neg hcmp]
          rw [hk] at hcmp
          exact ⟨Or.inr rfl, by omega, le_refl _⟩
      obtain ⟨sc, hsc, hcases, hle1, hle2⟩ := hchoice
      rw [← hsc]
      have hscp : (sc - 1) / 2 = hole := by omega
      have hsclt : sc < len := by omega
      have hsc0 : 0 < sc := by omega
      have hup : key (c.getD hole default) ≤ key (c.getD sc default) := by
        have := hH sc hsclt hsc0
        rwa [hscp] at this
      have hH2 : ∀ i, i < len → 0 < i →
          key ((c.set hole (c.getD sc default)).getD ((i - 1) / 2) default) ≤
            key ((c.set hole (c.getD sc default)).getD i default) := by
        intro i hi hi0
        rw [getD_set_eq, getD_set_eq]
        by_cases h1 : hole = i
        · have hn : ¬ (hole = (i - 1) / 2 ∧ hole < c.length) := by omega
          have hy : hole = i ∧ hole < c.length := ⟨h1, by omega⟩
          rw [if_neg hn, if_pos hy]
          have := hH i hi hi0
          rw [← h1] at this ⊢
          omega
        · have hn : ¬ (hole = i ∧ hole < c.length) := fun h => h1 h.1
          rw [if_neg hn]
          by_cases h2 : hole = (i - 1) / 2
          · have hy : hole = (i - 1) / 2 ∧ hole < c.length := ⟨h2, by omega⟩
            rw [if_pos hy]
            have hi2 : i = 2 * hole + 1 ∨ i = 2 * hole + 2 := by omega
            rcases hi2 with hi2 | hi2
            · rw [hi2]; exact hle1
            · rw [hi2]; exact hle2
          · have hn2 : ¬ (hole = (i - 1) / 2 ∧ hole < c.length) := fun h => h2 h.1
            rw [if_neg hn2]
            exact hH i hi hi0
      obtain ⟨r1, r2, r3, r4, r5, r6, r7⟩ :=
        ih (c.set hole (c.getD sc default)) sc (by omega) hsclt (by simpa using hlen) hH2
      refine ⟨by rw [r1]; simp, by omega, r3, r4, r5, ?_, ?_⟩
      · intro v
        exact (r6 v).trans
          (perm_move_hole c hole sc v default (by omega) (by omega) (by omega))
      · intro j hj
        have hn : ¬ (hole = j ∧ hole < c.length) := by omega
        rw [r7 j hj, getD_set_eq, if_neg hn]
    · rename_i hge
      exact ⟨rfl, le_refl _, hh, hge, hH, fun v => List.Perm.refl _, fun j _ => rfl⟩

/-! ## Sifting a value in from the root -/

theorem adjust_heap_down_length (len : Nat) (fuel : Nat) (c : List α) (hole : Nat) :
    (adjust_heap_down comp len fuel c hole).1.length = c.length := by
  induction fuel generalizing c hole with
  | zero => simp [adjust_heap_down]
  | succ n ih =>
    simp only [adjust_heap_down]
    split
    · rw [ih]; simp
    · rfl

theorem adjust_heap_length (c : List α) (hole len : Nat) (v : α) :
    (adjust_heap comp c hole len v).length = c.length := by
  simp only [adjust_heap]
  split
  · rw [push_heap_impl_length]; simp [adjust_heap_down_length]
  · rw [push_heap_impl_length]; simp [adjust_heap_down_length]

theorem adjust_heap_spec (hk : ∀ a b, comp a b = true ↔ key b < key a)
    (len : Nat) (c : List α) (v : α) (h0 : 0 < len) (hlen : len ≤ c.length)
    (hH : ∀ i, i < len → 0 < i →
      key (c.getD ((i - 1) / 2) default) ≤ key (c.getD i default)) :
    (adjust_heap comp c 0 len v).length = c.length ∧
    (∀ i, i < len → 0 < i →
      key ((adjust_heap comp c 0 len v).getD ((i - 1) / 2) default) ≤
        key ((adjust_heap comp c 0 len v).getD i default)) ∧
    (adjust_heap comp c 0 len v).Perm (c.set 0 v) ∧
    (∀ j, len ≤ j → (adjust_heap comp c 0 len v).getD j default = c.getD j default) := by
  obtain ⟨r1, -, r3, r4, r5, r6, r7⟩ :=
    adjust_heap_down_spec comp key hk len len c 0 (by omega) h0 hlen hH
  simp only [adjust_heap]
  generalize (adjust_heap_down comp len len c 0).1 = d at r1 r5 r6 r7
  generalize (adjust_heap_down comp len len c 0).2 = hole at r3 r4 r6
  split
  · rename_i hc
    obtain ⟨heven, hhole⟩ := hc
    have hch : 2 * (hole + 1) - 1 = len - 1 := by omega
    rw [hch]
    have hl1 : len - 1 < len := by omega
    have hne : hole ≠ len - 1 := by omega
    have hpar : (len - 1 - 1) / 2 = hole := by omega
    have hup : key (d.getD hole default) ≤ key (d.getD (len - 1) default) := by
      have := r5 (len - 1) hl1 (by omega)
      rwa [hpar] at this
    refine ⟨?_, ?_, ?_, ?_⟩
    · rw [push_heap_impl_length]; simp [r1]
    · apply push_heap_impl_heap comp key hk v len (len - 1) _ (len - 1) (le_refl _) hl1
        (by simp; omega)
      · intro i hi hi0 hne2
        rw [getD_set_eq, getD_set_eq]
        by_cases h1 : hole = i
        · have hn : ¬ (hole = (i - 1) / 2 ∧ hole < d.length) := by omega
          have hy : hole = i ∧ hole < d.length := ⟨h1, by omega⟩
          rw [if_neg hn, if_pos hy]
          have := r5 i hi hi0
          rw [← h1] at this ⊢
          omega
        · have hn : ¬ (hole = i ∧ hole < d.length) := fun h => h1 h.1
          have hn2 : ¬ (hole = (i - 1) / 2 ∧ hole < d.length) := by omega
          rw [if_neg hn, if_neg hn2]
          exact r5 i hi hi0
      · intro i hi hi0 hp; omega
      · intro i hi hi0 hp; omega
    · have h1 := push_heap_impl_perm comp v (len - 1)
        (d.set hole (d.getD (len - 1) default)) (len - 1) (by simp; omega)
      exact (h1.trans (perm_move_hole d hole (len - 1) v default hne (by omega)
        (by omega))).trans (r6 v)
    · intro j hj
      have hn : ¬ (hole = j ∧ hole < d.length) := by omega
      rw [push_heap_impl_above comp v 0 _ _ _ j (by omega), getD_set_eq, if_neg hn, r7 j hj]
  · rename_i hc
    refine ⟨?_, ?_, ?_, ?_⟩
    · rw [push_heap_impl_length]; exact r1
    · apply push_heap_impl_heap comp key hk v len hole d hole (le_refl _) r3 (by omega)
      · intro i hi hi0 _; exact r5 i hi hi0
      · intro i hi hi0 hp; exfalso; apply hc; omega
      · intro i hi hi0 hp; exfalso; apply hc; omega
    · exact (push_heap_impl_perm comp v hole d hole (by omega)).trans (r6 v)
    · intro j hj
      rw [push_heap_impl_above comp v 0 _ _ _ j (by omega), r7 j hj]

/-! ## Members of the priority queue -/

theorem isHeapUpTo_iff (hk : ∀ a b, comp a b = true ↔ key b < key a) (len : Nat) (c : List α) :
    IsHeapUpTo comp len c ↔ ∀ i, i < len → 0 < i →
      key (c.getD ((i - 1) / 2) default) ≤ key (c.getD i default) := by
  unfold IsHeapUpTo
  constructor
  · intro h i hi hi0
    have h1 := h i hi hi0
    have h2 : ¬ comp (c.getD ((i - 1) / 2) default) (c.getD i default) = true :=
      Bool.eq_false_iff.1 h1
    rw [hk] at h2
    omega
  · intro h i hi hi0
    have h1 := h i hi hi0
    have h2 : ¬ comp (c.getD ((i - 1) / 2) default) (c.getD i default) = true := by
      rw [hk]; omega
    exact Bool.eq_false_iff.2 h2

theorem pq_push_length (c : List α) (x : α) : (pq_push comp c x).length = c.length + 1 := by
  simp [pq_push, push_heap, push_heap_impl_length]

theorem pq_push_perm (c : List α) (x : α) : (pq_push comp c x).Perm (x :: c) := by
  unfold pq_push push_heap
  have hl : (c ++ [x]).length - 1 = c.length := by simp
  have hv : (c ++ [x]).getD c.length default = x := by
    simp [List.getD_eq_getElem?_getD]
  simp only [hl, hv]
  have h1 := push_heap_impl_perm comp x c.length (c ++ [x]) c.length (by simp)
  have h2 : (c ++ [x]).set c.length x = c ++ [x] := by
    rw [List.set_append]; simp
  rw [h2] at h1
  exact h1.trans (List.perm_append_singleton x c)

theorem pq_push_isHeap (hk : ∀ a b, comp a b = true ↔ key b < key a) (c : List α) (x : α)
    (h : IsHeap comp c) : IsHeap comp (pq_push comp c x) := by
  unfold IsHeap at h ⊢
  rw [isHeapUpTo_iff comp key hk] at h ⊢
  rw [pq_push_length]
  unfold pq_push push_heap
  have hl : (c ++ [x]).length - 1 = c.length := by simp
  have hv : (c ++ [x]).getD c.length default = x := by
    simp [List.getD_eq_getElem?_getD]
  simp only [hl, hv]
  apply push_heap_impl_heap comp key hk x (c.length + 1) c.length (c ++ [x]) c.length
    (le_refl _) (by omega) (by simp)
  · intro i hi hi0 hne
    rw [getD_append_left c [x] _ default (by omega), getD_append_left c [x] _ default (by omega)]
    exact h i (by omega) hi0
  · intro i hi hi0 hp; omega
  · intro i hi hi0 hp; omega

theorem pq_pop_length (c : List α) : (pq_pop comp c).length = c.length - 1 := by
  unfold pq_pop pop_heap
  split
  · rw [List.length_dropLast, adjust_heap_length]; simp
  · simp

theorem pq_pop_spec (hk : ∀ a b, comp a b = true ↔ key b < key a) (c : List α)
    (h : IsHeap comp c) (hne : c ≠ []) :
    IsHeap comp (pq_pop comp c) ∧ c.Perm (pq_top c :: pq_pop comp c) := by
  have hpos : 0 < c.length := List.length_pos.2 hne
  unfold IsHeap at h ⊢
  rw [isHeapUpTo_iff comp key hk] at h ⊢
  rw [pq_pop_length]
  unfold pq_pop pop_heap pq_top
  split
  · rename_i hgt
    simp only
    have hn : ∀ i, i < c.length - 1 →
        (c.set (c.length - 1) (c.getD 0 default)).getD i default = c.getD i default := by
      intro i hi
      have hn : ¬ (c.length - 1 = i ∧ c.length - 1 < c.length) := by omega
      rw [getD_set_eq, if_neg hn]
    obtain ⟨r1, r2, r3, r4⟩ := adjust_heap_spec comp key hk (c.length - 1)
      (c.set (c.length - 1) (c.getD 0 default)) (c.getD (c.length - 1) default)
      (by omega) (by simp)
      (by
        intro i hi hi0
        rw [hn i hi, hn _ (by omega)]
        exact h i (by omega) hi0)
    generalize adjust_heap comp (c.set (c.length - 1) (c.getD 0 default)) 0 (c.length - 1)
      (c.getD (c.length - 1) default) = res at r1 r2 r3 r4
    have hrl : res.length = c.length := by simpa using r1
    constructor
    · intro i hi hi0
      rw [getD_dropLast res _ default (by omega), getD_dropLast res _ default (by omega)]
      exact r2 i hi hi0
    · have hlast : res.getD (res.length - 1) default = c.getD 0 default := by
        have hy : c.length - 1 = c.length - 1 ∧ c.length - 1 < c.length := ⟨rfl, by omega⟩
        rw [hrl, r4 _ (le_refl _), getD_set_eq, if_pos hy]
      have hres : res ≠ [] := by
        intro he
        rw [he] at hrl
        simp at hrl
        omega
      have hsplit := eq_dropLast_append res default hres
      rw [hlast] at hsplit
      have hp1 : ((c.set (c.length - 1) (c.getD 0 default)).set 0
          (c.getD (c.length - 1) default)).Perm c := by
        have := perm_move_hole c (c.length - 1) 0 (c.getD (c.length - 1) default) default
          (by omega) (by omega) (by omega)
        rwa [set_getD_self c _ default (by omega)] at this
      have hp2 : res.Perm c := r3.trans hp1
      rw [hsplit] at hp2
      exact (hp2.symm).trans (List.perm_append_singleton _ _)
  · rename_i hle
    have h1 : c.length = 1 := by omega
    obtain ⟨a, rfl⟩ := List.length_eq_one.1 h1
    constructor
    · intro i hi; simp at hi
    · simp

/-- The root of a heap is not above any slot. -/
theorem heap_root_le (hk : ∀ a b, comp a b = true ↔ key b < key a) (c : List α)
    (h : IsHeap comp c) (i : Nat) (hi : i < c.length) :
    key (pq_top c) ≤ key (c.getD i default) := by
  unfold IsHeap at h
  rw [isHeapUpTo_iff comp key hk] at h
  unfold pq_top
  induction i using Nat.strong_induction_on with
  | _ i ih =>
    by_cases h0 : i = 0
    · subst h0; exact le_refl _
    · have h1 := h i hi (by omega)
      have h2 := ih ((i - 1) / 2) (by omega) (by omega)
      omega

theorem heap_top_le_mem (hk : ∀ a b, comp a b = true ↔ key b < key a) (c : List α)
    (h : IsHeap comp c) (x : α) (hx : x ∈ c) : key (pq_top c) ≤ key x := by
  obtain ⟨i, hi, rfl⟩ := List.getElem_of_mem hx
  have := heap_root_le comp key hk c h i hi
  simpa [List.getD_eq_getElem?_getD, List.getElem?_eq_getElem hi] using this

theorem pq_top_mem (c : List α) (hne : c ≠ []) : pq_top c ∈ c := by
  cases c with
  | nil => exact absurd rfl hne
  | cons a t => simp [pq_top]

theorem isHeap_nil : IsHeap comp ([] : List α) := by
  intro i hi; simp at hi

end HeapLemmas

end EmergencyQueue

namespace EmergencyQueue

/-! ## The comparator and the state operations -/

theorem compareCases_iff (a b : EmergencyCase) :
    CompareCases a b = true ↔ b.priority_level < a.priority_level := by
  simp [CompareCases]

theorem add_emergency_case_queue (s : State) (patient_id name priority condition : String)
    (now : Int) (io : OpenOutcomes) :
    (add_emergency_case s patient_id name priority condition now io).2.emergency_queue =
      pq_push CompareCases s.emergency_queue
        (EmergencyCase.create patient_id name (convert_priority_level priority) condition now) :=
  rfl

theorem add_emergency_case_result (s : State) (patient_id name priority condition : String)
    (now : Int) (io : OpenOutcomes) :
    (add_emergency_case s patient_id name priority condition now io).1 = true :=
  rfl

theorem get_next_of_ne_nil (s : State) (out : OutParams) (h : s.emergency_queue ≠ []) :
    get_next_emergency_case s out =
      (true, OutParams.ofCase (pq_top s.emergency_queue),
        { s with emergency_queue := pq_pop CompareCases s.emergency_queue }) := by
  unfold get_next_emergency_case pq_empty
  have : s.emergency_queue.isEmpty = false := by
    cases hq : s.emergency_queue with
    | nil => exact absurd hq h
    | cons a t => rfl
  simp [this, OutParams.ofCase]

theorem get_next_of_nil (s : State) (out : OutParams) (h : s.emergency_queue = []) :
    get_next_emergency_case s out = (false, out, s) := by
  unfold get_next_emergency_case pq_empty
  simp [h]

theorem clear_loop_eq_nil (fuel : Nat) (q : Queue) (h : q.length ≤ fuel) :
    clear_loop fuel q = [] := by
  induction fuel generalizing q with
  | zero =>
    have : q = [] := List.length_eq_zero.1 (by omega)
    simp [clear_loop, this]
  | succ n ih =>
    simp only [clear_loop]
    cases q with
    | nil => simp [pq_empty]
    | cons a t =>
      simp only [pq_empty, List.isEmpty_cons, Bool.not_false, if_true]
      apply ih
      rw [pq_pop_length]
      simp at h ⊢
      omega

theorem pop_times_spec (k : Nat) (s : State) (out : OutParams)
    (h : k ≤ s.emergency_queue.length) :
    (pop_times k s out).1 = List.replicate k true ∧
    (pop_times k s out).2.2.emergency_queue.length = s.emergency_queue.length - k ∧
    (pop_times k s out).2.2.log = s.log := by
  induction k generalizing s out with
  | zero => simp [pop_times]
  | succ n ih =>
    have hne : s.emergency_queue ≠ [] := by
      intro he; rw [he] at h; simp at h
    simp only [pop_times, get_next_of_ne_nil s out hne]
    have hl : (pq_pop CompareCases s.emergency_queue).length = s.emergency_queue.length - 1 :=
      pq_pop_length _ _
    obtain ⟨h1, h2, h3⟩ := ih { s with emergency_queue := pq_pop CompareCases s.emergency_queue }
      (OutParams.ofCase (pq_top s.emergency_queue)) (by simp only [hl]; omega)
    refine ⟨?_, ?_, ?_⟩
    · rw [h1]; rfl
    · rw [h2]; simp only [hl]; omega
    · rw [h3]

theorem add_calls_spec (s : State) (calls : List AddCall) :
    (add_calls s calls).1 = List.replicate calls.length true ∧
    (add_calls s calls).2.emergency_queue.length = s.emergency_queue.length + calls.length := by
  induction calls generalizing s with
  | nil => simp [add_calls]
  | cons a rest ih =>
    obtain ⟨h1, h2⟩ := ih (add_call s a).2
    simp only [add_calls]
    refine ⟨?_, ?_⟩
    · rw [h1]; rfl
    · rw [h2]
      simp only [add_call, add_emergency_case_queue, pq_push_length, List.length_cons]
      omega

theorem add_call_isHeap (s : State) (a : AddCall) (h : IsHeap CompareCases s.emergency_queue) :
    IsHeap CompareCases (add_call s a).2.emergency_queue :=
  pq_push_isHeap CompareCases EmergencyCase.priority_level compareCases_iff _ _ h

theorem load_loop_isHeap (fuel : Nat) (file : List Char) (q : Queue) (count : Nat)
    (h : IsHeap CompareCases q) : IsHeap CompareCases (load_loop fuel file q count).2 := by
  induction fuel generalizing file q count with
  | zero => exact h
  | succ n ih =>
    simp only [load_loop]
    split
    · exact h
    · split
      · exact h
      · split
        · exact h
        · exact ih _ _ _
            (pq_push_isHeap CompareCases EmergencyCase.priority_level compareCases_iff _ _ h)

theorem load_isHeap (s : State) (h : IsHeap CompareCases s.emergency_queue) :
    IsHeap CompareCases (load_emergency_cases_from_csv s).2.emergency_queue := by
  unfold load_emergency_cases_from_csv
  split
  · exact h
  · exact load_loop_isHeap _ _ _ _ h

theorem clear_isHeap (s : State) : IsHeap CompareCases (clear_emergency_queue s).emergency_queue := by
  have h : (clear_emergency_queue s).emergency_queue = [] := clear_loop_eq_nil _ _ (le_refl _)
  rw [h]
  exact isHeap_nil CompareCases

theorem get_next_isHeap (s : State) (out : OutParams)
    (h : IsHeap CompareCases s.emergency_queue) :
    IsHeap CompareCases (get_next_emergency_case s out).2.2.emergency_queue := by
  by_cases hq : s.emergency_queue = []
  · rw [get_next_of_nil s out hq]; exact h
  · rw [get_next_of_ne_nil s out hq]
    exact (pq_pop_spec CompareCases EmergencyCase.priority_level compareCases_iff _ h hq).1

theorem step_isHeap (s : State) (op : Operation)
    (h : IsHeap CompareCases s.emergency_queue) :
    IsHeap CompareCases (step s op).emergency_queue := by
  cases op with
  | add a => exact add_call_isHeap s a h
  | get_next out => exact get_next_isHeap s out h
  | load => exact load_isHeap s h
  | clear => exact clear_isHeap s
  | get_all m => exact h
  | replace_log log => exact h

/-- Every state reached from a heap is a heap. -/
theorem run_isHeap (ops : List Operation) (s : State)
    (h : IsHeap CompareCases s.emergency_queue) :
    IsHeap CompareCases (run s ops).emergency_queue := by
  unfold run
  induction ops generalizing s with
  | nil => exact h
  | cons op rest ih => exact ih _ (step_isHeap s op h)

/-- Draining a heap: the calls end within size-many pops, return the queued
records, each once, and the priorities returned never decrease. -/
theorem pop_until_empty_spec (fuel : Nat) (s : State) (out : OutParams)
    (hf : s.emergency_queue.length < fuel) (h : IsHeap CompareCases s.emergency_queue) :
    ∃ outs, pop_until_empty fuel s out = some outs ∧
      outs.Perm (s.emergency_queue.map OutParams.ofCase) ∧
      List.Pairwise (fun a b => a ≤ b) (outs.map OutParams.priority) := by
  induction fuel generalizing s out with
  | zero => omega
  | succ n ih =>
    by_cases hq : s.emergency_queue = []
    · refine ⟨[], ?_, ?_, ?_⟩
      · simp [pop_until_empty, get_next_of_nil s out hq]
      · simp [hq]
      · simp
    · obtain ⟨hheap, hperm⟩ :=
        pq_pop_spec CompareCases EmergencyCase.priority_level compareCases_iff _ h hq
      have hl : (pq_pop CompareCases s.emergency_queue).length = s.emergency_queue.length - 1 :=
        pq_pop_length _ _
      have hpos : 0 < s.emergency_queue.length := List.length_pos.2 hq
      obtain ⟨rest, e, hp, hs⟩ :=
        ih { s with emergency_queue := pq_pop CompareCases s.emergency_queue }
          (OutParams.ofCase (pq_top s.emergency_queue)) (by simp only [hl]; omega) hheap
      refine ⟨OutParams.ofCase (pq_top s.emergency_queue) :: rest, ?_, ?_, ?_⟩
      · simp [pop_until_empty, get_next_of_ne_nil s out hq, e]
      · have h1 := hperm.map OutParams.ofCase
        rw [List.map_cons] at h1
        exact (List.Perm.cons _ hp).trans h1.symm
      · rw [List.map_cons, List.pairwise_cons]
        refine ⟨?_, hs⟩
        intro p hpm
        obtain ⟨o, ho, rfl⟩ := List.mem_map.1 hpm
        have ho2 := hp.mem_iff.1 ho
        obtain ⟨x, hx, rfl⟩ := List.mem_map.1 ho2
        have hxq : x ∈ s.emergency_queue :=
          hperm.mem_iff.2 (List.mem_cons_of_mem _ hx)
        exact heap_top_le_mem CompareCases EmergencyCase.priority_level compareCases_iff _ h x hxq

/-! ## Reading back what was written -/

theorem getline_delim (pre rest : List Char) (d : Char) (h : d ∉ pre) :
    getline (pre ++ d :: rest) d = some (pre, rest) := by
  have hp : ∀ a ∈ pre, (fun c => c != d) a = true := by
    intro a ha
    have : a ≠ d := fun e => h (e ▸ ha)
    simpa using this
  unfold getline
  rw [if_neg (by simp)]
  rw [List.takeWhile_append_of_pos hp, List.dropWhile_append_of_pos hp]
  simp

theorem read_field_mid (pre rest : List Char) (h : ',' ∉ pre) :
    read_field (pre ++ ',' :: rest) = (pre, rest) := by
  unfold read_field
  rw [getline_delim pre rest ',' h]

theorem read_field_last (t : List Char) (h : ',' ∉ t) : read_field t = (t, []) := by
  unfold read_field getline
  by_cases ht : t = []
  · simp [ht]
  · have hp : ∀ a ∈ t, (fun c => c != ',') a = true := by
      intro a ha
      have : a ≠ ',' := fun e => h (e ▸ ha)
      simpa using this
    have h1 : t.takeWhile (fun c => c != ',') = t := takeWhile_eq_self _ _ hp
    have h2 : t.dropWhile (fun c => c != ',') = [] := by
      have := @List.dropWhile_append_of_pos _ _ t [] hp
      simpa using this
    rw [if_neg ht, h1, h2]
    rfl

theorem stoi_int_to_chars (i : Int) (h : IsInt32 i) : stoi (int_to_chars i) = .ok i := by
  unfold stoi
  rw [strtol_int_to_chars]
  unfold IsInt32 at h
  simp only
  rw [if_neg (by omega)]

theorem stol_int_to_chars (i : Int) (h : IsTimeT i) : stol (int_to_chars i) = .ok i := by
  unfold stol
  rw [strtol_int_to_chars]
  unfold IsTimeT at h
  simp only
  rw [if_neg (by omega)]

/-- One iteration of the load loop on the line written for a record gives the
record back. -/
theorem load_loop_line (ec : EmergencyCase) (fuel : Nat) (rest : List Char) (q : Queue)
    (count : Nat) (h1 : CleanText ec.patient_id) (h2 : CleanText ec.name)
    (h3 : CleanText ec.condition) (h4 : IsInt32 ec.priority_level) (h5 : IsTimeT ec.timestamp) :
    load_loop (fuel + 1) (log_line ec ++ rest) q count =
      load_loop fuel rest (pq_push CompareCases q ec) (count + 1) := by
  have hpri := int_to_chars_clean ec.priority_level
  have hts := int_to_chars_clean ec.timestamp
  have hts_c : ',' ∉ int_to_chars ec.timestamp := fun hm => (hts _ hm).1 rfl
  have hpri_c : ',' ∉ int_to_chars ec.priority_level := fun hm => (hpri _ hm).1 rfl
  have hline : log_line ec ++ rest =
      (ec.patient_id.toList ++ ',' :: (ec.name.toList ++ ',' ::
        (int_to_chars ec.priority_level ++ ',' :: (ec.condition.toList ++ ',' ::
          int_to_chars ec.timestamp)))) ++ '\n' :: rest := by
    simp [log_line, List.append_assoc]
  have hnl : '\n' ∉ ec.patient_id.toList ++ ',' :: (ec.name.toList ++ ',' ::
        (int_to_chars ec.priority_level ++ ',' :: (ec.condition.toList ++ ',' ::
          int_to_chars ec.timestamp))) := by
    simp only [List.mem_append, List.mem_cons, not_or]
    refine ⟨h1.2, by decide, h2.2, by decide, ?_, by decide, h3.2, by decide, ?_⟩
    · exact fun hm => (hpri _ hm).2 rfl
    · exact fun hm => (hts _ hm).2 rfl
  rw [hline]
  simp only [load_loop]
  rw [getline_delim _ rest '\n' hnl]
  simp only
  rw [read_field_mid _ _ h1.1]
  simp only
  rw [read_field_mid _ _ h2.1]
  simp only
  rw [read_field_mid _ _ hpri_c]
  simp only
  rw [read_field_mid _ _ h3.1]
  simp only
  rw [read_field_last _ hts_c]
  simp only
  rw [stoi_int_to_chars _ h4, stol_int_to_chars _ h5]
  rfl

theorem log_line_length_pos (ec : EmergencyCase) : 0 < (log_line ec).length := by
  simp [log_line]

/-- The load loop on the lines written for a list of records pushes the
records in file order and counts them. -/
theorem load_loop_lines (rs : List EmergencyCase) (fuel : Nat) (q : Queue) (count : Nat)
    (hf : ((rs.map log_line).flatten).length ≤ fuel)
    (h : ∀ ec ∈ rs, CleanText ec.patient_id ∧ CleanText ec.name ∧ CleanText ec.condition ∧
      IsInt32 ec.priority_level ∧ IsTimeT ec.timestamp) :
    load_loop fuel ((rs.map log_line).flatten) q count =
      (.ok (count + rs.length), rs.foldl (pq_push CompareCases) q) := by
  induction rs generalizing fuel q count with
  | nil =>
    cases fuel with
    | zero => rfl
    | succ n => simp [load_loop, getline]
  | cons ec rest ih =>
    simp only [List.map_cons, List.flatten_cons, List.length_append] at hf ⊢
    have hpos := log_line_length_pos ec
    obtain ⟨n, rfl⟩ : ∃ n, fuel = n + 1 := ⟨fuel - 1, by omega⟩
    obtain ⟨c1, c2, c3, c4, c5⟩ := h ec (List.mem_cons_self _ _)
    rw [load_loop_line ec n _ q count c1 c2 c3 c4 c5]
    rw [ih n _ _ (by omega) (fun e he => h e (List.mem_cons_of_mem _ he))]
    simp only [List.length_cons, List.foldl_cons]
    congr 2
    omega

theorem foldl_pq_push_perm (rs : List EmergencyCase) (q : Queue) :
    (rs.foldl (pq_push CompareCases) q).Perm (q ++ rs) := by
  induction rs generalizing q with
  | nil => simp
  | cons r rest ih =>
    rw [List.foldl_cons]
    refine (ih _).trans ?_
    have h1 : (pq_push CompareCases q r).Perm (q ++ [r]) :=
      (pq_push_perm CompareCases q r).trans (List.perm_append_singleton r q).symm
    have h2 := h1.append_right rest
    simpa using h2

theorem add_call_log (s : State) (a : AddCall) (content : List Char)
    (hlog : s.log = some content) (h : a.io.append_ok = true) :
    (add_call s a).2.log = some (content ++ log_line a.record) := by
  simp [add_call, add_emergency_case, h, hlog, AddCall.record]

theorem add_calls_log (calls : List AddCall) (s : State) (content : List Char)
    (hlog : s.log = some content) (h : ∀ a ∈ calls, a.io.append_ok = true) :
    (add_calls s calls).2.log =
      some (content ++ ((calls.map AddCall.record).map log_line).flatten) := by
  induction calls generalizing s content with
  | nil => simpa [add_calls] using hlog
  | cons a rest ih =>
    have h1 := add_call_log s a content hlog (h a (List.mem_cons_self _ _))
    have h2 := ih (add_call s a).2 _ h1 (fun x hx => h x (List.mem_cons_of_mem _ hx))
    simp only [add_calls, h2, List.map_cons, List.flatten_cons, List.append_assoc]

theorem convert_priority_level_range (priority : String) :
    1 ≤ convert_priority_level priority ∧ convert_priority_level priority ≤ 4 := by
  unfold convert_priority_level
  split_ifs <;> omega

theorem getline_log_header (rest : List Char) :
    getline (log_header ++ rest) '\n' =
      some ("patient_id,name,priority_level,condition,timestamp".toList, rest) := by
  have e : log_header ++ rest =
      "patient_id,name,priority_level,condition,timestamp".toList ++ '\n' :: rest := by
    have : log_header = "patient_id,name,priority_level,condition,timestamp".toList ++ ['\n'] := by
      decide
    rw [this]; simp
  rw [e]
  exact getline_delim _ rest '\n' (by decide)

/-! ## Fuel

Each loop gives the same result for every fuel not below its bound: the fuel
never cuts a loop short. -/

theorem push_heap_impl_fuel {α : Type} [Inhabited α] (comp : α → α → Bool) (v : α)
    (top : Nat) (f1 f2 : Nat) (c : List α) (hole : Nat) (h1 : hole ≤ f1) (h2 : hole ≤ f2) :
    push_heap_impl comp v top f1 c hole = push_heap_impl comp v top f2 c hole := by
  induction f1 generalizing f2 c hole with
  | zero =>
    have h0 : hole = 0 := by omega
    subst h0
    cases f2 with
    | zero => rfl
    | succ m => simp [push_heap_impl]
  | succ n ih =>
    cases f2 with
    | zero =>
      have h0 : hole = 0 := by omega
      subst h0
      simp [push_heap_impl]
    | succ m =>
      simp only [push_heap_impl]
      split
      · rename_i hc
        exact ih m _ _ (by omega) (by omega)
      · rfl

theorem adjust_heap_down_fuel {α : Type} [Inhabited α] (comp : α → α → Bool) (len : Nat)
    (f1 f2 : Nat) (c : List α) (hole : Nat) (h1 : len ≤ f1 + hole) (h2 : len ≤ f2 + hole) :
    adjust_heap_down comp len f1 c hole = adjust_heap_down comp len f2 c hole := by
  induction f1 generalizing f2 c hole with
  | zero =>
    cases f2 with
    | zero => rfl
    | succ m =>
      simp only [adjust_heap_down]
      rw [if_neg (by omega)]
  | succ n ih =>
    cases f2 with
    | zero =>
      simp only [adjust_heap_down]
      rw [if_neg (by omega)]
    | succ m =>
      simp only [adjust_heap_down]
      split
      · apply ih
        · split <;> omega
        · split <;> omega
      · rfl

theorem natDigits_fuel (f1 f2 n : Nat) (acc : List Char) (h1 : n < f1) (h2 : n < f2) :
    natDigits f1 n acc = natDigits f2 n acc := by
  induction f1 generalizing f2 n acc with
  | zero => omega
  | succ k ih =>
    cases f2 with
    | zero => omega
    | succ m =>
      simp only [natDigits]
      split
      · rfl
      · exact ih m _ _ (by omega) (by omega)

theorem getline_rest_length (file line rest : List Char) (d : Char)
    (h : getline file d = some (line, rest)) : rest.length < file.length := by
  unfold getline at h
  split at h
  · simp at h
  · rename_i hne
    simp only [Option.some.injEq, Prod.mk.injEq] at h
    rw [← h.2]
    have h1 := (List.dropWhile_suffix (fun c => c != d) (l := file)).length_le
    have hpos : 0 < file.length := List.length_pos.2 hne
    rw [List.length_tail]
    omega

theorem load_loop_fuel (f1 f2 : Nat) (file : List Char) (q : Queue) (count : Nat)
    (h1 : file.length ≤ f1) (h2 : file.length ≤ f2) :
    load_loop f1 file q count = load_loop f2 file q count := by
  induction f1 generalizing f2 file q count with
  | zero =>
    have h0 : file = [] := List.length_eq_zero.1 (by omega)
    subst h0
    cases f2 with
    | zero => rfl
    | succ m => simp [load_loop, getline]
  | succ n ih =>
    cases f2 with
    | zero =>
      have h0 : file = [] := List.length_eq_zero.1 (by omega)
      subst h0
      simp [load_loop, getline]
    | succ m =>
      simp only [load_loop]
      split
      · rfl
      · rename_i line rest hg
        have hl := getline_rest_length _ _ _ _ hg
        split
        · rfl
        · split
          · rfl
          · exact ih m _ _ _ (by omega) (by omega)

theorem get_all_loop_fuel (f1 f2 : Nat) (q : Queue) (result : List Char) (first : Bool)
    (h1 : q.length ≤ f1) (h2 : q.length ≤ f2) :
    get_all_loop f1 q result first = get_all_loop f2 q result first := by
  induction f1 generalizing f2 q result first with
  | zero =>
    have h0 : q = [] := List.length_eq_zero.1 (by omega)
    subst h0
    cases f2 with
    | zero => rfl
    | succ m => simp [get_all_loop, pq_empty]
  | succ n ih =>
    cases f2 with
    | zero =>
      have h0 : q = [] := List.length_eq_zero.1 (by omega)
      subst h0
      simp [get_all_loop, pq_empty]
    | succ m =>
      simp only [get_all_loop]
      split
      · rename_i hne
        have hq : q ≠ [] := by
          intro e; subst e; simp [pq_empty] at hne
        have hpos : 0 < q.length := List.length_pos.2 hq
        have hl : (pq_pop CompareCases q).length = q.length - 1 := pq_pop_length _ _
        exact ih m _ _ _ (by omega) (by omega)
      · rfl

/-- On a non-empty heap `get_next_emergency_case` returns a record of least
priority level and removes one occurrence of it. -/
theorem get_next_spec (s : State) (out : OutParams)
    (hheap : IsHeap CompareCases s.emergency_queue) (hne : s.emergency_queue ≠ []) :
    (get_next_emergency_case s out).1 = true ∧
    ∃ r, r ∈ s.emergency_queue ∧
      (get_next_emergency_case s out).2.1 = OutParams.ofCase r ∧
      (∀ x ∈ s.emergency_queue, r.priority_level ≤ x.priority_level) ∧
      s.emergency_queue.Perm (r :: (get_next_emergency_case s out).2.2.emergency_queue) ∧
      (get_next_emergency_case s out).2.2.log = s.log := by
  rw [get_next_of_ne_nil s out hne]
  refine ⟨rfl, pq_top s.emergency_queue, pq_top_mem _ hne, rfl, ?_, ?_, rfl⟩
  · exact heap_top_le_mem CompareCases EmergencyCase.priority_level compareCases_iff _ hheap
  · exact (pq_pop_spec CompareCases EmergencyCase.priority_level compareCases_iff _ hheap hne).2

/-! ## Popping permutes any vector -/

theorem adjust_heap_down_perm {α : Type} [Inhabited α] (comp : α → α → Bool) (len : Nat)
    (fuel : Nat) (c : List α) (hole : Nat) (hh : hole < len) (hlen : len ≤ c.length) :
    (adjust_heap_down comp len fuel c hole).1.length = c.length ∧
    (adjust_heap_down comp len fuel c hole).2 < len ∧
    (∀ v, ((adjust_heap_down comp len fuel c hole).1.set
      (adjust_heap_down comp len fuel c hole).2 v).Perm (c.set hole v)) ∧
    (∀ j, len ≤ j →
      (adjust_heap_down comp len fuel c hole).1.getD j default = c.getD j default) := by
  induction fuel generalizing c hole with
  | zero => exact ⟨rfl, hh, fun v => List.Perm.refl _, fun j _ => rfl⟩
  | succ n ih =>
    simp only [adjust_heap_down]
    split
    · rename_i hlt
      have hchoice : ∃ sc, sc = (if comp (c.getD (2 * (hole + 1)) default)
            (c.getD (2 * (hole + 1) - 1) default) = true
          then 2 * (hole + 1) - 1 else 2 * (hole + 1)) ∧
          (sc = 2 * hole + 1 ∨ sc = 2 * hole + 2) := by
        refine ⟨_, rfl, ?_⟩
        split <;> omega
      obtain ⟨sc, hsc, hcases⟩ := hchoice
      rw [← hsc]
      have hsclt : sc < len := by omega
      obtain ⟨r1, r2, r3, r4⟩ :=
        ih (c.set hole (c.getD sc default)) sc hsclt (by simpa using hlen)
      refine ⟨by rw [r1]; simp, r2, ?_, ?_⟩
      · intro v
        exact (r3 v).trans
          (perm_move_hole c hole sc v default (by omega) (by omega) (by omega))
      · intro j hj
        have hn : ¬ (hole = j ∧ hole < c.length) := by omega
        rw [r4 j hj, getD_set_eq, if_neg hn]
    · exact ⟨rfl, hh, fun v => List.Perm.refl _, fun j _ => rfl⟩

theorem adjust_heap_perm {α : Type} [Inhabited α] (comp : α → α → Bool) (len : Nat)
    (c : List α) (v : α) (h0 : 0 < len) (hlen : len ≤ c.length) :
    (adjust_heap comp c 0 len v).Perm (c.set 0 v) ∧
    (∀ j, len ≤ j → (adjust_heap comp c 0 len v).getD j default = c.getD j default) := by
  obtain ⟨r1, r2, r3, r4⟩ := adjust_heap_down_perm comp len len c 0 h0 hlen
  simp only [adjust_heap]
  generalize (adjust_heap_down comp len len c 0).1 = d at r1 r3 r4
  generalize (adjust_heap_down comp len len c 0).2 = hole at r2 r3
  split
  · rename_i hc
    obtain ⟨heven, hhole⟩ := hc
    have hch : 2 * (hole + 1) - 1 = len - 1 := by omega
    rw [hch]
    have hne : hole ≠ len - 1 := by omega
    refine ⟨?_, ?_⟩
    · have h1 := push_heap_impl_perm comp v (len - 1)
        (d.set hole (d.getD (len - 1) default)) (len - 1) (by simp; omega)
      exact (h1.trans (perm_move_hole d hole (len - 1) v default hne (by omega)
        (by omega))).trans (r3 v)
    · intro j hj
      have hn : ¬ (hole = j ∧ hole < d.length) := by omega
      rw [push_heap_impl_above comp v 0 _ _ _ j (by omega), getD_set_eq, if_neg hn, r4 j hj]
  · refine ⟨?_, ?_⟩
    · exact (push_heap_impl_perm comp v hole d hole (by omega)).trans (r3 v)
    · intro j hj
      rw [push_heap_impl_above comp v 0 _ _ _ j (by omega), r4 j hj]

/-- Whatever the vector holds, `pop` removes one occurrence of its front. -/
theorem pq_pop_perm {α : Type} [Inhabited α] (comp : α → α → Bool) (c : List α)
    (hne : c ≠ []) : c.Perm (pq_top c :: pq_pop comp c) := by
  have hpos : 0 < c.length := List.length_pos.2 hne
  unfold pq_pop pop_heap pq_top
  split
  · rename_i hgt
    simp only
    obtain ⟨r3, r4⟩ := adjust_heap_perm comp (c.length - 1)
      (c.set (c.length - 1) (c.getD 0 default)) (c.getD (c.length - 1) default)
      (by omega) (by simp)
    have r1 := adjust_heap_length comp (c.set (c.length - 1) (c.getD 0 default)) 0
      (c.length - 1) (c.getD (c.length - 1) default)
    generalize adjust_heap comp (c.set (c.length - 1) (c.getD 0 default)) 0 (c.length - 1)
      (c.getD (c.length - 1) default) = res at r1 r3 r4
    have hrl : res.length = c.length := by simpa using r1
    have hlast : res.getD (res.length - 1) default = c.getD 0 default := by
      have hy : c.length - 1 = c.length - 1 ∧ c.length - 1 < c.length := ⟨rfl, by omega⟩
      rw [hrl, r4 _ (le_refl _), getD_set_eq, if_pos hy]
    have hres : res ≠ [] := by
      intro he
      rw [he] at hrl
      simp at hrl
      omega
    have hsplit := eq_dropLast_append res default hres
    rw [hlast] at hsplit
    have hp1 : ((c.set (c.length - 1) (c.getD 0 default)).set 0
        (c.getD (c.length - 1) default)).Perm c := by
      have := perm_move_hole c (c.length - 1) 0 (c.getD (c.length - 1) default) default
        (by omega) (by omega) (by omega)
      rwa [set_getD_self c _ default (by omega)] at this
    have hp2 : res.Perm c := r3.trans hp1
    rw [hsplit] at hp2
    exact (hp2.symm).trans (List.perm_append_singleton _ _)
  · rename_i hle
    have h1 : c.length = 1 := by omega
    obtain ⟨a, rfl⟩ := List.length_eq_one.1 h1
    simp

/-! ## The enumeration of `get_all_emergency_cases` -/

theorem get_all_loop_eq (fuel : Nat) (q : Queue) (result : List Char) (first : Bool) :
    get_all_loop fuel q result first = result ++ json_items first (get_all_cases fuel q) := by
  induction fuel generalizing q result first with
  | zero => simp [get_all_loop, get_all_cases, json_items]
  | succ n ih =>
    simp only [get_all_loop, get_all_cases]
    split
    · rw [ih]
      cases first <;> simp [json_items, List.append_assoc]
    · simp [json_items]

theorem pop_until_empty_eq_cases (n : Nat) (s : State) (out : OutParams)
    (h : s.emergency_queue.length ≤ n) :
    pop_until_empty (n + 1) s out =
      some ((get_all_cases n s.emergency_queue).map OutParams.ofCase) := by
  induction n generalizing s out with
  | zero =>
    have hq : s.emergency_queue = [] := List.length_eq_zero.1 (by omega)
    simp [pop_until_empty, get_next_of_nil s out hq, get_all_cases]
  | succ k ih =>
    by_cases hq : s.emergency_queue = []
    · simp [pop_until_empty, get_next_of_nil s out hq, get_all_cases, hq, pq_empty]
    · have hpos : 0 < s.emergency_queue.length := List.length_pos.2 hq
      have hl : (pq_pop CompareCases s.emergency_queue).length = s.emergency_queue.length - 1 :=
        pq_pop_length _ _
      have hemp : pq_empty s.emergency_queue = false := by
        cases hs : s.emergency_queue with
        | nil => exact absurd hs hq
        | cons a t => rfl
      have e := ih { s with emergency_queue := pq_pop CompareCases s.emergency_queue }
        (OutParams.ofCase (pq_top s.emergency_queue)) (by simp only [hl]; omega)
      rw [pop_until_empty, get_next_of_ne_nil s out hq]
      simp only [if_true, e, get_all_cases, hemp, Bool.not_false, Option.map_some',
        List.map_cons]

theorem get_all_cases_perm (n : Nat) (q : Queue) (h : q.length ≤ n) :
    (get_all_cases n q).Perm q := by
  induction n generalizing q with
  | zero =>
    have hq : q = [] := List.length_eq_zero.1 (by omega)
    simp [get_all_cases, hq]
  | succ k ih =>
    by_cases hq : q = []
    · simp [get_all_cases, hq, pq_empty]
    · have hpos : 0 < q.length := List.length_pos.2 hq
      have hl : (pq_pop CompareCases q).length = q.length - 1 := pq_pop_length _ _
      have hemp : pq_empty q = false := by
        cases q with
        | nil => exact absurd rfl hq
        | cons a t => rfl
      simp only [get_all_cases, hemp, Bool.not_false, if_true]
      exact (List.Perm.cons _ (ih _ (by omega))).trans (pq_pop_perm CompareCases q hq).symm

/-! ## Decimal numerals -/

theorem isDigit_facts (c : Char) (h : c.isDigit = true) :
    isspace c = false ∧ c ≠ '-' ∧ c ≠ '+' ∧ c ≠ ',' ∧ c ≠ '\n' := by
  have hne : ∀ d : Char, d.isDigit = false → c ≠ d := by
    intro d hd e
    rw [e, hd] at h
    exact absurd h (by decide)
  refine ⟨?_, hne _ (by decide), hne _ (by decide), hne _ (by decide), hne _ (by decide)⟩
  have h1 := hne ' ' (by decide)
  have h2 := hne '\t' (by decide)
  have h3 := hne '\n' (by decide)
  have h4 := hne '\x0b' (by decide)
  have h5 := hne '\x0c' (by decide)
  have h6 := hne '\r' (by decide)
  simp [isspace, h1, h2, h3, h4, h5, h6]

theorem strtol_digits (c : Char) (ds : List Char) (h : (c :: ds).all Char.isDigit = true) :
    strtol (c :: ds) = some (digitsValue (c :: ds) : Int) := by
  have hall : ∀ x ∈ c :: ds, x.isDigit = true := by
    simpa [List.all_eq_true] using h
  have hc := isDigit_facts c (hall c (List.mem_cons_self _ _))
  have htw : (c :: ds).takeWhile Char.isDigit = c :: ds := takeWhile_eq_self _ _ hall
  unfold strtol
  have h1 : List.dropWhile isspace (c :: ds) = c :: ds := by
    rw [List.dropWhile_cons]; simp [hc.1]
  simp only [h1, if_neg hc.2.1, if_neg hc.2.2.1, htw]
  simp

theorem strtol_minus_digits (ds : List Char) (hne : ds ≠ [])
    (h : ds.all Char.isDigit = true) :
    strtol ('-' :: ds) = some (-(digitsValue ds : Int)) := by
  have hall : ∀ x ∈ ds, x.isDigit = true := by
    simpa [List.all_eq_true] using h
  have htw : ds.takeWhile Char.isDigit = ds := takeWhile_eq_self _ _ hall
  unfold strtol
  have h1 : List.dropWhile isspace ('-' :: ds) = '-' :: ds := by
    rw [List.dropWhile_cons]; simp [show isspace '-' = false by decide]
  simp only [h1, if_true, htw, if_neg hne]

/-- On a decimal numeral `strtol` converts the whole text. -/
theorem strtol_decimal (t : List Char) (h : isDecimal t = true) :
    strtol t = some (decimalValue t) := by
  cases t with
  | nil => simp [isDecimal] at h
  | cons c ds =>
    unfold isDecimal at h
    unfold decimalValue
    by_cases hc : c = '-'
    · subst hc
      simp only [if_true, Bool.and_eq_true, Bool.not_eq_true', List.isEmpty_eq_false] at h ⊢
      exact strtol_minus_digits ds (by simpa using h.1) h.2
    · simp only [if_neg hc] at h ⊢
      exact strtol_digits c ds h

theorem isDecimal_clean (t : List Char) (h : isDecimal t = true) :
    ',' ∉ t ∧ '\n' ∉ t := by
  cases t with
  | nil => simp
  | cons c ds =>
    unfold isDecimal at h
    by_cases hc : c = '-'
    · subst hc
      simp only [if_true, Bool.and_eq_true] at h
      have hall : ∀ x ∈ ds, x.isDigit = true := by
        simpa [List.all_eq_true] using h.2
      constructor
      · intro hm
        rcases List.mem_cons.1 hm with e | hm
        · exact absurd e (by decide)
        · exact (isDigit_facts _ (hall _ hm)).2.2.2.1 rfl
      · intro hm
        rcases List.mem_cons.1 hm with e | hm
        · exact absurd e (by decide)
        · exact (isDigit_facts _ (hall _ hm)).2.2.2.2 rfl
    · simp only [if_neg hc] at h
      have hall : ∀ x ∈ c :: ds, x.isDigit = true := by
        simpa [List.all_eq_true] using h
      exact ⟨fun hm => (isDigit_facts _ (hall _ hm)).2.2.2.1 rfl,
        fun hm => (isDigit_facts _ (hall _ hm)).2.2.2.2 rfl⟩

/-- The text written for an integer is a decimal numeral of that integer. -/
theorem int_to_chars_decimal (i : Int) :
    isDecimal (int_to_chars i) = true ∧ decimalValue (int_to_chars i) = i := by
  obtain ⟨ds, e, hne, hall, hv⟩ := natDigits_spec (i.natAbs + 1) i.natAbs [] (by omega)
  have hd : ds.all Char.isDigit = true := by
    simpa [List.all_eq_true] using fun c hc => (hall c hc).1
  unfold int_to_chars
  rw [e, List.append_nil]
  by_cases hneg : i < 0
  · rw [if_pos hneg]
    refine ⟨?_, ?_⟩
    · simp only [isDecimal, if_true, hd, Bool.and_true]
      cases ds with
      | nil => exact absurd rfl hne
      | cons a t => rfl
    · simp only [decimalValue, if_true, hv]
      omega
  · rw [if_neg hneg]
    obtain ⟨c, t, rfl⟩ := List.exists_cons_of_ne_nil hne
    have hc := hall c (List.mem_cons_self _ _)
    refine ⟨?_, ?_⟩
    · simp only [isDecimal, if_neg hc.2.2.2.2.1, hd]
    · simp only [decimalValue, if_neg hc.2.2.2.2.1, hv]
      omega

/-! ## One line of the log -/

theorem getline_no_delim (l : List Char) (d : Char) (h : d ∉ l) (hne : l ≠ []) :
    getline l d = some (l, []) := by
  have hp : ∀ a ∈ l, (fun c => c != d) a = true := by
    intro a ha
    have : a ≠ d := fun e => h (e ▸ ha)
    simpa using this
  have h1 : l.takeWhile (fun c => c != d) = l := takeWhile_eq_self _ _ hp
  have h2 : l.dropWhile (fun c => c != d) = [] := by
    have := @List.dropWhile_append_of_pos _ _ l [] hp
    simpa using this
  unfold getline
  rw [if_neg hne, h1, h2]
  rfl

/-- One iteration of the load loop on a line that a newline ends. -/
theorem load_loop_step (line rest : List Char) (fuel : Nat) (q : Queue) (count : Nat)
    (h : '\n' ∉ line) :
    load_loop (fuel + 1) (line ++ '\n' :: rest) q count =
      match parse_line line with
      | .error e => (.error e, q)
      | .ok ec => load_loop fuel rest (pq_push CompareCases q ec) (count + 1) := by
  simp only [load_loop]
  rw [getline_delim line rest '\n' h]
  simp only [parse_line]
  cases stoi (read_field (read_field (read_field line).2).2).1 with
  | error e => rfl
  | ok p =>
    cases stol (read_field (read_field (read_field (read_field (read_field line).2).2).2).2).1 with
    | error e => rfl
    | ok t => rfl

/-- One iteration of the load loop on a last line that no newline ends. -/
theorem load_loop_last (line : List Char) (fuel : Nat) (q : Queue) (count : Nat)
    (h : '\n' ∉ line) (hne : line ≠ []) :
    load_loop (fuel + 1) line q count =
      match parse_line line with
      | .error e => (.error e, q)
      | .ok ec => load_loop fuel [] (pq_push CompareCases q ec) (count + 1) := by
  simp only [load_loop]
  rw [getline_no_delim line '\n' h hne]
  simp only [parse_line]
  cases stoi (read_field (read_field (read_field line).2).2).1 with
  | error e => rfl
  | ok p =>
    cases stol (read_field (read_field (read_field (read_field (read_field line).2).2).2).2).1 with
    | error e => rfl
    | ok t => rfl

theorem load_loop_nil (fuel : Nat) (q : Queue) (count : Nat) :
    load_loop fuel [] q count = (.ok count, q) := by
  cases fuel with
  | zero => rfl
  | succ n => simp [load_loop, getline]

/-- A well-formed line whose numbers are in range parses to its record. -/
theorem parse_line_text (l : RecordLine) (hw : l.WellFormed) (hr : l.InRange) :
    parse_line l.text = .ok l.record := by
  obtain ⟨h1, h2, h3, h4, h5⟩ := hw
  obtain ⟨r1, r2⟩ := hr
  have hp := isDecimal_clean _ h4
  have ht := isDecimal_clean _ h5
  have e1 : stoi l.priority = .ok (decimalValue l.priority) := by
    unfold stoi
    rw [strtol_decimal _ h4]
    unfold IsInt32 at r1
    simp only
    rw [if_neg (by omega)]
  have e2 : stol l.timestamp = .ok (decimalValue l.timestamp) := by
    unfold stol
    rw [strtol_decimal _ h5]
    unfold IsTimeT at r2
    simp only
    rw [if_neg (by omega)]
  unfold parse_line RecordLine.text
  simp only
  rw [read_field_mid _ _ h1.1]
  simp only
  rw [read_field_mid _ _ h2.1]
  simp only
  rw [read_field_mid _ _ hp.1]
  simp only
  rw [read_field_mid _ _ h3.1]
  simp only
  rw [read_field_last _ ht.1]
  simp only
  rw [e1, e2]
  rfl

theorem text_no_newline (l : RecordLine) (hw : l.WellFormed) : '\n' ∉ l.text := by
  obtain ⟨h1, h2, h3, h4, h5⟩ := hw
  have hp := isDecimal_clean _ h4
  have ht := isDecimal_clean _ h5
  unfold RecordLine.text
  simp only [List.mem_append, List.mem_cons, not_or]
  exact ⟨h1.2, by decide, h2.2, by decide, hp.2, by decide, h3.2, by decide, ht.2⟩

/-- The load loop on well-formed lines pushes their records in file order. -/
theorem load_loop_record_lines (lines : List RecordLine) (fuel : Nat) (q : Queue) (count : Nat)
    (hf : ((lines.map (fun l => l.text ++ ['\n'])).flatten).length ≤ fuel)
    (h : ∀ l ∈ lines, l.WellFormed ∧ l.InRange) :
    load_loop fuel ((lines.map (fun l => l.text ++ ['\n'])).flatten) q count =
      (.ok (count + lines.length), (lines.map RecordLine.record).foldl (pq_push CompareCases) q) := by
  induction lines generalizing fuel q count with
  | nil => simpa using load_loop_nil fuel q count
  | cons l rest ih =>
    simp only [List.map_cons, List.flatten_cons, List.length_append, List.length_cons,
      List.length_nil] at hf ⊢
    obtain ⟨n, rfl⟩ : ∃ n, fuel = n + 1 := ⟨fuel - 1, by omega⟩
    obtain ⟨hw, hr⟩ := h l (List.mem_cons_self _ _)
    have e : l.text ++ ['\n'] ++ (rest.map (fun l => l.text ++ ['\n'])).flatten =
        l.text ++ '\n' :: (rest.map (fun l => l.text ++ ['\n'])).flatten := by simp
    rw [e, load_loop_step _ _ n q count (text_no_newline l hw), parse_line_text l hw hr]
    simp only
    rw [ih n _ _ (by omega) (fun x hx => h x (List.mem_cons_of_mem _ hx))]
    simp only [List.foldl_cons]
    congr 2
    omega

/-! ## Loading a log of well-formed lines -/

theorem load_log_text (s : State) (first : List Char) (lines : List RecordLine)
    (hlog : s.log = some (log_text first lines)) (hf : '\n' ∉ first)
    (h : ∀ l ∈ lines, l.WellFormed ∧ l.InRange) :
    load_emergency_cases_from_csv s =
      (.ok lines.length,
        { s with emergency_queue :=
            (lines.map RecordLine.record).foldl (pq_push CompareCases) s.emergency_queue }) := by
  unfold load_emergency_cases_from_csv
  rw [hlog]
  simp only [log_text]
  rw [getline_delim first _ '\n' hf]
  simp only
  rw [load_loop_record_lines lines _ s.emergency_queue 0 (le_refl _) h]
  simp

theorem validPriorities_perm (q1 q2 : Queue) (hp : q1.Perm q2) (h : ValidPriorities q2) :
    ValidPriorities q1 :=
  fun r hr => h r (hp.mem_iff.1 hr)

theorem validPriorities_get_next (s : State) (out : OutParams)
    (h : ValidPriorities s.emergency_queue) :
    ValidPriorities (get_next_emergency_case s out).2.2.emergency_queue := by
  by_cases hq : s.emergency_queue = []
  · rw [get_next_of_nil s out hq]; exact h
  · rw [get_next_of_ne_nil s out hq]
    intro r hr
    exact h r ((pq_pop_perm CompareCases _ hq).mem_iff.2 (List.mem_cons_of_mem _ hr))

theorem validPriorities_add (s : State) (patient_id name priority condition : String)
    (now : Int) (io : OpenOutcomes) (h : ValidPriorities s.emergency_queue) :
    ValidPriorities
      (add_emergency_case s patient_id name priority condition now io).2.emergency_queue := by
  rw [add_emergency_case_queue]
  intro r hr
  rcases List.mem_cons.1 ((pq_push_perm CompareCases _ _).mem_iff.1 hr) with e | hm
  · subst e
    exact convert_priority_level_range priority
  · exact h r hm

theorem pq_push_nil (x : EmergencyCase) : pq_push CompareCases [] x = [x] := by
  simp [pq_push, push_heap, push_heap_impl]

/-! ## Lines on which the load faults -/

/-- Function `strtol` converts nothing exactly when the text does not begin
with a number. -/
theorem strtol_eq_none_iff (t : List Char) :
    strtol t = none ↔ begins_with_number t = false := by
  unfold strtol begins_with_number
  cases hd : t.dropWhile isspace with
  | nil => simp
  | cons c rest =>
    simp only
    by_cases h1 : c = '-'
    · subst h1
      simp only [if_true, true_or]
      cases rest with
      | nil => simp
      | cons d r =>
        by_cases hdg : d.isDigit = true
        · simp [List.takeWhile_cons, hdg]
        · simp [List.takeWhile_cons, hdg]
    · by_cases h2 : c = '+'
      · subst h2
        simp only [if_neg h1, if_true, or_true]
        cases rest with
        | nil => simp
        | cons d r =>
          by_cases hdg : d.isDigit = true
          · simp [List.takeWhile_cons, hdg]
          · simp [List.takeWhile_cons, hdg]
      · simp only [if_neg h1, if_neg h2, h1, h2, or_self, if_false]
        by_cases hdg : c.isDigit = true
        · simp [List.takeWhile_cons, hdg]
        · simp [List.takeWhile_cons, hdg]

theorem read_field_nil : read_field [] = ([], []) := rfl

/-- A field read consumes one comma, or everything when there is none. -/
theorem read_field_rest (l : List Char) :
    (read_field l).2 = [] ∨ (read_field l).2.count ',' + 1 = l.count ',' := by
  by_cases hm : ',' ∈ l
  · obtain ⟨pre, rest, rfl, hpre⟩ := List.eq_append_cons_of_mem hm
    right
    rw [read_field_mid pre rest hpre]
    have h0 : pre.count ',' = 0 := List.count_eq_zero.2 hpre
    simp [List.count_append, List.count_cons, h0]
  · left
    rw [read_field_last l hm]

/-- With fewer than five fields the fifth field read is empty. -/
theorem timestamp_field_of_few_fields (line : List Char) (h : field_count line < 5) :
    timestamp_field line = [] := by
  unfold field_count at h
  have a1 := read_field_rest line
  have a2 := read_field_rest (read_field line).2
  have a3 := read_field_rest (read_field (read_field line).2).2
  have a4 := read_field_rest (read_field (read_field (read_field line).2).2).2
  have hnil : (read_field (read_field (read_field (read_field line).2).2).2).2 = [] := by
    rcases a4 with h4 | h4
    · exact h4
    · rcases a3 with h3 | h3
      · rw [h3] at h4; simp [read_field_nil] at h4
      · rcases a2 with h2 | h2
        · rw [h2] at h3; simp [read_field_nil] at h3
        · rcases a1 with h1 | h1
          · rw [h1] at h2; simp [read_field_nil] at h2
          · omega
  unfold timestamp_field
  rw [hnil]
  rfl

/-- The body of the load loop faults on a line with fewer than five fields or
with a priority or timestamp field that does not begin with a number. -/
theorem parse_line_faults (line : List Char)
    (h : field_count line < 5 ∨ begins_with_number (priority_field line) = false ∨
      begins_with_number (timestamp_field line) = false) :
    ∃ e, parse_line line = .error e := by
  have hts : begins_with_number (priority_field line) = false ∨
      begins_with_number (timestamp_field line) = false := by
    rcases h with h | h | h
    · right
      rw [timestamp_field_of_few_fields line h]
      rfl
    · exact Or.inl h
    · exact Or.inr h
  unfold parse_line
  simp only
  have hp : priority_field line = (read_field (read_field (read_field line).2).2).1 := rfl
  have ht : timestamp_field line =
      (read_field (read_field (read_field (read_field (read_field line).2).2).2).2).1 := rfl
  rw [← hp, ← ht]
  rcases hts with h | h
  · have : stoi (priority_field line) = .error .invalid_argument := by
      unfold stoi
      rw [(strtol_eq_none_iff _).2 h]
    rw [this]
    exact ⟨_, rfl⟩
  · have : stol (timestamp_field line) = .error .invalid_argument := by
      unfold stol
      rw [(strtol_eq_none_iff _).2 h]
    rw [this]
    cases stoi (priority_field line) with
    | error e => exact ⟨_, rfl⟩
    | ok p => exact ⟨_, rfl⟩

theorem atLineStart_split (before : List Char) (hne : before ≠ []) (h : AtLineStart before) :
    ∃ l1 rest, before = l1 ++ '\n' :: rest ∧ '\n' ∉ l1 ∧ AtLineStart rest := by
  induction before with
  | nil => exact absurd rfl hne
  | cons c t ih =>
    have hlast : (c :: t).getLast? = some '\n' := by
      rcases h with h | h
      · exact absurd h hne
      · exact h
    by_cases hc : c = '\n'
    · subst hc
      refine ⟨[], t, rfl, by simp, ?_⟩
      cases t with
      | nil => exact Or.inl rfl
      | cons a r =>
        right
        rwa [List.getLast?_cons_cons] at hlast
    · cases t with
      | nil =>
        rw [List.getLast?_singleton] at hlast
        exact absurd (Option.some.inj hlast) hc
      | cons a r =>
        rw [List.getLast?_cons_cons] at hlast
        obtain ⟨l1, rest, e, hl1, hrest⟩ := ih (by simp) (Or.inr hlast)
        refine ⟨c :: l1, rest, by rw [e]; rfl, ?_, hrest⟩
        intro hm
        rcases List.mem_cons.1 hm with e2 | hm
        · exact hc e2.symm
        · exact hl1 hm

/-- The load loop faults when the unread text holds, at the start of a line, a
line on which the body of the loop faults. -/
theorem load_loop_faults (bad tail : List Char) (hbad : '\n' ∉ bad)
    (htail : (tail = [] ∧ bad ≠ []) ∨ ∃ rest, tail = '\n' :: rest)
    (hfault : ∃ e, parse_line bad = .error e) (n : Nat) :
    ∀ (before : List Char), before.length ≤ n → AtLineStart before →
      ∀ (fuel : Nat) (q : Queue) (count : Nat), (before ++ bad ++ tail).length ≤ fuel →
        ∃ e, (load_loop fuel (before ++ bad ++ tail) q count).1 = .error e := by
  obtain ⟨e0, he0⟩ := hfault
  induction n with
  | zero =>
    intro before hb _ fuel q count hfuel
    have hnil : before = [] := List.length_eq_zero.1 (by omega)
    subst hnil
    simp only [List.nil_append] at hfuel ⊢
    rcases htail with ⟨ht, hne⟩ | ⟨rest, ht⟩
    · subst ht
      simp only [List.append_nil] at hfuel ⊢
      have hpos : 0 < bad.length := List.length_pos.2 hne
      obtain ⟨m, rfl⟩ : ∃ m, fuel = m + 1 := ⟨fuel - 1, by omega⟩
      rw [load_loop_last bad m q count hbad hne, he0]
      exact ⟨e0, rfl⟩
    · subst ht
      simp only [List.length_append, List.length_cons] at hfuel
      obtain ⟨m, rfl⟩ : ∃ m, fuel = m + 1 := ⟨fuel - 1, by omega⟩
      rw [load_loop_step bad rest m q count hbad, he0]
      exact ⟨e0, rfl⟩
  | succ k ih =>
    intro before hb hstart fuel q count hfuel
    by_cases hnil : before = []
    · subst hnil
      exact ih [] (by simp) (Or.inl rfl) fuel q count hfuel
    · obtain ⟨l1, rest, e, hl1, hrest⟩ := atLineStart_split before hnil hstart
      subst e
      simp only [List.length_append, List.length_cons] at hb hfuel
      obtain ⟨m, rfl⟩ : ∃ m, fuel = m + 1 := ⟨fuel - 1, by omega⟩
      have e2 : l1 ++ '\n' :: rest ++ bad ++ tail = l1 ++ '\n' :: (rest ++ bad ++ tail) := by
        simp
      rw [e2, load_loop_step l1 _ m q count hl1]
      cases parse_line l1 with
      | error e => exact ⟨e, rfl⟩
      | ok ec =>
        simp only
        apply ih rest (by omega) hrest
        simp only [List.length_append]
        omega

/-! ## Copies into the caller's buffers -/

theorem strcpy_of_nulFree (t : String) (h : NulFree t) : strcpy t = t := by
  have hp : ∀ c ∈ t.toList, (fun c => c != '\x00') c = true := by
    intro c hc
    have : c ≠ '\x00' := fun e => h (e ▸ hc)
    simpa using this
  unfold strcpy
  rw [takeWhile_eq_self _ _ hp]
  cases t
  rfl

theorem ofCase_of_nulFree (ec : EmergencyCase) (h : ec.NulFree) :
    OutParams.ofCase ec = OutParams.verbatim ec := by
  unfold OutParams.ofCase OutParams.verbatim
  rw [strcpy_of_nulFree _ h.1, strcpy_of_nulFree _ h.2.1, strcpy_of_nulFree _ h.2.2]

theorem json_items_false (l : List EmergencyCase) :
    json_items false l = (l.map (fun ec => ',' :: case_json ec)).flatten := by
  induction l with
  | nil => rfl
  | cons a t ih => simp [json_items, ih]

theorem intercalate_comma (a : List Char) (l : List (List Char)) :
    List.intercalate [','] (a :: l) = a ++ (l.map (fun x => ',' :: x)).flatten := by
  induction l generalizing a with
  | nil => simp [List.intercalate]
  | cons b t ih =>
    have h := ih b
    simp only [List.intercalate] at h ⊢
    simp [List.intersperse, h]

theorem json_items_true (l : List EmergencyCase) :
    json_items true l = List.intercalate [','] (l.map case_json) := by
  cases l with
  | nil => simp [json_items, List.intercalate]
  | cons a t =>
    rw [List.map_cons, intercalate_comma]
    simp [json_items, json_items_false, List.map_map, Function.comp_def]

/-! ## Claims -/

/-- C3: `convert_priority_level` is a total function that maps "Emergency" to 1,
"Urgent" to 2, "Standard" to 3 and "Routine" to 4, and every other string,
"Critical", the empty string and "emergency" among them, to 4. -/
theorem convert_priority_level_table :
    convert_priority_level "Emergency" = 1 ∧ convert_priority_level "Urgent" = 2 ∧
    convert_priority_level "Standard" = 3 ∧ convert_priority_level "Routine" = 4 ∧
    convert_priority_level "Critical" = 4 ∧ convert_priority_level "" = 4 ∧
    convert_priority_level "emergency" = 4 ∧
    ∀ label : String, label ≠ "Emergency" → label ≠ "Urgent" → label ≠ "Standard" →
      convert_priority_level label = 4 := by
  refine ⟨by decide, by decide, by decide, by decide, by decide, by decide, by decide, ?_⟩
  intro label h1 h2 h3
  simp [convert_priority_level, h1, h2, h3]

/-- Witness of C3 at the label "Critical". -/
theorem convert_priority_level_table_witness :
    "Critical" ≠ "Emergency" ∧ "Critical" ≠ "Urgent" ∧ "Critical" ≠ "Standard" ∧
    convert_priority_level "Critical" = 4 :=
  ⟨by decide, by decide, by decide,
    convert_priority_level_table.2.2.2.2.2.2.2 "Critical" (by decide) (by decide) (by decide)⟩

/-- C8: `get_next_emergency_case` returns false exactly when the queue is
empty, and then the state (the queue, still empty) and the five output
parameters are as before the call. -/
theorem get_next_false_iff_empty (s : State) (out : OutParams) :
    ((get_next_emergency_case s out).1 = false ↔ s.emergency_queue = []) ∧
    ((get_next_emergency_case s out).1 = false →
      (get_next_emergency_case s out).2.2 = s ∧
      (get_next_emergency_case s out).2.2.emergency_queue = [] ∧
      (get_next_emergency_case s out).2.1 = out) := by
  by_cases h : s.emergency_queue = []
  · rw [get_next_of_nil s out h]
    simp [h]
  · rw [get_next_of_ne_nil s out h]
    simp [h]

/-- Witness of C8 at the empty queue with no log. -/
theorem get_next_false_iff_empty_witness :
    (get_next_emergency_case fresh_state sample_out).1 = false ∧
    (get_next_emergency_case fresh_state sample_out).2.2 = fresh_state ∧
    (get_next_emergency_case fresh_state sample_out).2.2.emergency_queue = [] ∧
    (get_next_emergency_case fresh_state sample_out).2.1 = sample_out :=
  ⟨by decide, (get_next_false_iff_empty fresh_state sample_out).2 (by decide)⟩

/-- C9: for every queue state `clear_emergency_queue` ends with the queue empty
(its loop needs no more iterations than the size of the queue); afterwards
`get_emergency_queue_size` returns 0 and `get_next_emergency_case` returns
false. -/
theorem clear_then_empty (s : State) (out : OutParams) :
    (∀ extra, clear_loop (pq_size s.emergency_queue + extra) s.emergency_queue = []) ∧
    (clear_emergency_queue s).emergency_queue = [] ∧
    (clear_emergency_queue s).log = s.log ∧
    get_emergency_queue_size (clear_emergency_queue s) = 0 ∧
    (get_next_emergency_case (clear_emergency_queue s) out).1 = false := by
  have h : (clear_emergency_queue s).emergency_queue = [] :=
    clear_loop_eq_nil _ _ (le_refl _)
  refine ⟨fun extra => clear_loop_eq_nil _ _ (by simp [pq_size]), h, rfl, ?_, ?_⟩
  · simp [get_emergency_queue_size, pq_size, h]
  · rw [get_next_of_nil _ out h]

/-- C10: `get_all_emergency_cases` leaves the global state as it was (same
queue, same size, same results of later pops), and a second call right after
the first produces the same output. -/
theorem get_all_leaves_queue (s : State) (max_size : Nat) :
    (get_all_emergency_cases s max_size).2 = s ∧
    (get_all_emergency_cases s max_size).2.emergency_queue = s.emergency_queue ∧
    get_emergency_queue_size (get_all_emergency_cases s max_size).2 =
      get_emergency_queue_size s ∧
    (∀ fuel out, pop_until_empty fuel (get_all_emergency_cases s max_size).2 out =
      pop_until_empty fuel s out) ∧
    (get_all_emergency_cases (get_all_emergency_cases s max_size).2 max_size).1 =
      (get_all_emergency_cases s max_size).1 :=
  ⟨rfl, rfl, rfl, fun _ _ => rfl, rfl⟩

/-- C7: after `N` calls of `add_emergency_case` on an empty queue, each of which
returns true, and `K ≤ N` calls of `get_next_emergency_case`, every one of the
`K` calls has returned true and `get_emergency_queue_size` returns `N - K`. -/
theorem size_after_adds_and_pops (calls : List AddCall) (log : Option (List Char))
    (K : Nat) (out : OutParams) (hK : K ≤ calls.length) :
    (add_calls ⟨[], log⟩ calls).1 = List.replicate calls.length true ∧
    (pop_times K (add_calls ⟨[], log⟩ calls).2 out).1 = List.replicate K true ∧
    get_emergency_queue_size (pop_times K (add_calls ⟨[], log⟩ calls).2 out).2.2 =
      calls.length - K := by
  obtain ⟨h1, h2⟩ := add_calls_spec ⟨[], log⟩ calls
  simp only [List.length_nil, Nat.zero_add] at h2
  obtain ⟨h3, h4, -⟩ := pop_times_spec K (add_calls ⟨[], log⟩ calls).2 out (by omega)
  refine ⟨h1, h3, ?_⟩
  simp only [get_emergency_queue_size, pq_size, h4, h2]

/-- Witness of C7: two insertions, one pop. -/
theorem size_after_adds_and_pops_witness :
    1 ≤ sample_calls.length ∧
    (add_calls ⟨[], none⟩ sample_calls).1 = List.replicate sample_calls.length true ∧
    (pop_times 1 (add_calls ⟨[], none⟩ sample_calls).2 sample_out).1 =
      List.replicate 1 true ∧
    get_emergency_queue_size (pop_times 1 (add_calls ⟨[], none⟩ sample_calls).2 sample_out).2.2 =
      sample_calls.length - 1 :=
  ⟨by decide, size_after_adds_and_pops sample_calls none 1 sample_out (by decide)⟩

/-- C1: after any finite sequence of calls of `add_emergency_case` and of
`load_emergency_cases_from_csv` on an initially empty queue (whatever the log
holds, and with any other event in between), calling `get_next_emergency_case`
until it returns false ends, returns each queued record once, and the priority
levels returned never decrease; inserting P1/Emergency, P2/Routine, P3/Urgent
pops P1, P3, P2. -/
theorem pops_nondecreasing (ops : List Operation) (log : Option (List Char))
    (out : OutParams) :
    (∃ outs,
      pop_until_empty (pq_size (run ⟨[], log⟩ ops).emergency_queue + 1)
        (run ⟨[], log⟩ ops) out = some outs ∧
      outs.Perm ((run ⟨[], log⟩ ops).emergency_queue.map OutParams.ofCase) ∧
      List.Pairwise (fun a b => a ≤ b) (outs.map OutParams.priority)) ∧
    (∀ (t1 t2 t3 : Int) (io1 io2 io3 : OpenOutcomes),
      pop_until_empty 4
        (run ⟨[], log⟩
          [.add ⟨"P1", "Alice", "Emergency", "chest pain", t1, io1⟩,
           .add ⟨"P2", "Bob", "Routine", "checkup", t2, io2⟩,
           .add ⟨"P3", "Carol", "Urgent", "fracture", t3, io3⟩]) out =
        some [⟨"P1", "Alice", 1, "chest pain", t1⟩, ⟨"P3", "Carol", 2, "fracture", t3⟩,
              ⟨"P2", "Bob", 4, "checkup", t2⟩]) := by
  refine ⟨pop_until_empty_spec _ _ out (by simp [pq_size])
    (run_isHeap ops ⟨[], log⟩ (isHeap_nil CompareCases)), ?_⟩
  intro t1 t2 t3 io1 io2 io3
  simp [pop_until_empty, run, step, add_call, add_emergency_case, get_next_emergency_case,
    pq_push, push_heap, push_heap_impl, pq_pop, pop_heap, adjust_heap, adjust_heap_down,
    pq_top, pq_empty, CompareCases, convert_priority_level, EmergencyCase.create]
  decide

/-- C2, counterexample: after the log is replaced and loaded the queue holds
one record, whose patient id is `a`, a NUL character and `b`; the call returns
true with the patient id `a` in its output parameter, which is the patient id
of no queued record. -/
theorem get_next_cuts_text_at_nul :
    (run ⟨[], none⟩ nul_ops).emergency_queue = [⟨"a\x00b", "n", 1, "c", 5⟩] ∧
    (get_next_emergency_case (run ⟨[], none⟩ nul_ops) sample_out).1 = true ∧
    (get_next_emergency_case (run ⟨[], none⟩ nul_ops) sample_out).2.1.patient_id = "a" ∧
    ¬ ∃ r ∈ (run ⟨[], none⟩ nul_ops).emergency_queue,
      (get_next_emergency_case (run ⟨[], none⟩ nul_ops) sample_out).2.1 =
        OutParams.verbatim r := by
  decide

/-- C2, amended: in every state with a non-empty queue that the program reaches
from the empty queue, `get_next_emergency_case` returns true and, for a queued
record `r` whose priority level is not above that of any queued record, the
priority level and timestamp of `r` and the C-string copies of its patient id,
name and condition (each up to its first NUL character: the fields themselves
when they hold none); the queue afterwards holds the former records minus one
occurrence of `r`, and the log is not touched. -/
theorem get_next_returns_minimum (ops : List Operation) (log : Option (List Char))
    (out : OutParams) (hne : (run ⟨[], log⟩ ops).emergency_queue ≠ []) :
    (get_next_emergency_case (run ⟨[], log⟩ ops) out).1 = true ∧
    ∃ r, r ∈ (run ⟨[], log⟩ ops).emergency_queue ∧
      (get_next_emergency_case (run ⟨[], log⟩ ops) out).2.1 = OutParams.ofCase r ∧
      (get_next_emergency_case (run ⟨[], log⟩ ops) out).2.1 =
        ⟨strcpy r.patient_id, strcpy r.name, r.priority_level, strcpy r.condition,
          r.timestamp⟩ ∧
      (r.NulFree →
        (get_next_emergency_case (run ⟨[], log⟩ ops) out).2.1 = OutParams.verbatim r) ∧
      (∀ x ∈ (run ⟨[], log⟩ ops).emergency_queue, r.priority_level ≤ x.priority_level) ∧
      (run ⟨[], log⟩ ops).emergency_queue.Perm
        (r :: (get_next_emergency_case (run ⟨[], log⟩ ops) out).2.2.emergency_queue) ∧
      (get_next_emergency_case (run ⟨[], log⟩ ops) out).2.2.log = (run ⟨[], log⟩ ops).log := by
  obtain ⟨h1, r, hr, e, hmin, hperm, hlog⟩ := get_next_spec (run ⟨[], log⟩ ops) out
    (run_isHeap ops ⟨[], log⟩ (isHeap_nil CompareCases)) hne
  refine ⟨h1, r, hr, e, e, ?_, hmin, hperm, hlog⟩
  intro hnf
  rw [e, ofCase_of_nulFree r hnf]

/-- Witness of the amended C2: the state after the sample events. -/
theorem get_next_returns_minimum_witness :
    (run ⟨[], none⟩ sample_ops).emergency_queue ≠ [] ∧
    (get_next_emergency_case (run ⟨[], none⟩ sample_ops) sample_out).1 = true ∧
    ∃ r, r ∈ (run ⟨[], none⟩ sample_ops).emergency_queue ∧
      (get_next_emergency_case (run ⟨[], none⟩ sample_ops) sample_out).2.1 =
        OutParams.ofCase r ∧
      (get_next_emergency_case (run ⟨[], none⟩ sample_ops) sample_out).2.1 =
        ⟨strcpy r.patient_id, strcpy r.name, r.priority_level, strcpy r.condition,
          r.timestamp⟩ ∧
      (r.NulFree →
        (get_next_emergency_case (run ⟨[], none⟩ sample_ops) sample_out).2.1 =
          OutParams.verbatim r) ∧
      (∀ x ∈ (run ⟨[], none⟩ sample_ops).emergency_queue,
        r.priority_level ≤ x.priority_level) ∧
      (run ⟨[], none⟩ sample_ops).emergency_queue.Perm
        (r :: (get_next_emergency_case (run ⟨[], none⟩ sample_ops)
          sample_out).2.2.emergency_queue) ∧
      (get_next_emergency_case (run ⟨[], none⟩ sample_ops) sample_out).2.2.log =
        (run ⟨[], none⟩ sample_ops).log :=
  ⟨by decide, get_next_returns_minimum sample_ops none sample_out (by decide)⟩

/-- C5, evaluation: with the log absent and the open for append succeeding
(creating an empty file), `add_emergency_case` leaves a log that holds the line
of the record and nothing else; its first line is not the header row. -/
theorem add_on_absent_log_writes_no_header :
    (add_emergency_case fresh_state "P1" "Alice" "Emergency" "chest pain" 1700000000
      all_open).2.log = some "P1,Alice,1,chest pain,1700000000\n".toList ∧
    (add_emergency_case fresh_state "P1" "Alice" "Emergency" "chest pain" 1700000000
      all_open).2.log ≠
      some (log_header ++ "P1,Alice,1,chest pain,1700000000\n".toList) := by
  decide

/-- C6, counterexample: with no attempt to open the log succeeding, the call
inserts the record but its result is true, not false. -/
theorem unopenable_log_failure_not_reported :
    ¬ (get_emergency_queue_size (add_emergency_case fresh_state "P1" "Alice" "Emergency"
          "chest pain" 1700000000 none_open).2 = get_emergency_queue_size fresh_state + 1 ∧
        (add_emergency_case fresh_state "P1" "Alice" "Emergency" "chest pain" 1700000000
          none_open).1 = false) := by
  decide

/-- C6, amended: when the log can be neither opened for appending nor created,
`add_emergency_case` still inserts the record (the queue holds the former
records and the new one, its size grows by exactly 1), leaves the log as it
was, and returns true. -/
theorem add_unopenable_log (s : State) (patient_id name priority condition : String)
    (now : Int) (io : OpenOutcomes) (h1 : io.append_ok = false) (h2 : io.create_ok = false) :
    get_emergency_queue_size (add_emergency_case s patient_id name priority condition now io).2 =
      get_emergency_queue_size s + 1 ∧
    (add_emergency_case s patient_id name priority condition now io).2.emergency_queue.Perm
      (EmergencyCase.create patient_id name (convert_priority_level priority) condition now ::
        s.emergency_queue) ∧
    (add_emergency_case s patient_id name priority condition now io).2.log = s.log ∧
    (add_emergency_case s patient_id name priority condition now io).1 = true := by
  refine ⟨?_, ?_, ?_, rfl⟩
  · simp [get_emergency_queue_size, pq_size, add_emergency_case_queue, pq_push_length]
  · rw [add_emergency_case_queue]
    exact pq_push_perm _ _ _
  · simp [add_emergency_case, h1, h2]

/-- Witness of the amended C6: an admission on a queue of two with no log. -/
theorem add_unopenable_log_witness :
    none_open.append_ok = false ∧ none_open.create_ok = false ∧
    get_emergency_queue_size (add_emergency_case ⟨sample_queue, none⟩ "P3" "Carol" "Urgent"
        "fracture" 1700000002 none_open).2 = get_emergency_queue_size ⟨sample_queue, none⟩ + 1 ∧
    (add_emergency_case ⟨sample_queue, none⟩ "P3" "Carol" "Urgent" "fracture" 1700000002
        none_open).2.emergency_queue.Perm
      (EmergencyCase.create "P3" "Carol" (convert_priority_level "Urgent") "fracture"
        1700000002 :: sample_queue) ∧
    (add_emergency_case ⟨sample_queue, none⟩ "P3" "Carol" "Urgent" "fracture" 1700000002
        none_open).2.log = none ∧
    (add_emergency_case ⟨sample_queue, none⟩ "P3" "Carol" "Urgent" "fracture" 1700000002
        none_open).1 = true :=
  ⟨by decide, by decide,
    add_unopenable_log ⟨sample_queue, none⟩ "P3" "Carol" "Urgent" "fracture" 1700000002
      none_open (by decide) (by decide)⟩

/-- C4, counterexample: starting from an absent log, one admission without any
comma leaves a log that `load_emergency_cases_from_csv` reads into an empty
queue as no record at all (count 0, not 1: the record line is discarded as the
header); and starting from a log that holds the header row, one admission
whose name is comma-free but holds a newline makes the load fault. -/
theorem roundtrip_from_absent_log_fails :
    (CommaFree "P1" ∧ CommaFree "Alice" ∧ CommaFree "chest pain" ∧
      (load_emergency_cases_from_csv
        ⟨[], (add_emergency_case fresh_state "P1" "Alice" "Emergency" "chest pain" 1700000000
          all_open).2.log⟩).1 ≠ .ok 1 ∧
      (load_emergency_cases_from_csv
        ⟨[], (add_emergency_case fresh_state "P1" "Alice" "Emergency" "chest pain" 1700000000
          all_open).2.log⟩).1 = .ok 0 ∧
      (load_emergency_cases_from_csv
        ⟨[], (add_emergency_case fresh_state "P1" "Alice" "Emergency" "chest pain" 1700000000
          all_open).2.log⟩).2.emergency_queue = []) ∧
    (CommaFree "P1" ∧ CommaFree "Ali\nce" ∧ CommaFree "chest pain" ∧
      (load_emergency_cases_from_csv
        ⟨[], (add_emergency_case ⟨[], some log_header⟩ "P1" "Ali\nce" "Emergency" "chest pain"
          1700000000 all_open).2.log⟩).1 = .error .invalid_argument) := by
  decide

/-- C4, amended: for every finite list of admissions whose patient id, name
and condition hold neither a comma nor a newline, with clock values in the
range of `time_t` and every open for append succeeding, calling
`add_emergency_case` for each, starting from a log that holds the header row,
and then `load_emergency_cases_from_csv` on an empty queue returns their count
and leaves the queue holding exactly the records admitted (same patient id,
name, priority level, condition and timestamp), each once. -/
theorem log_roundtrip (calls : List AddCall) (q0 : Queue)
    (h : ∀ a ∈ calls, CleanText a.patient_id ∧ CleanText a.name ∧ CleanText a.condition ∧
      IsTimeT a.now ∧ a.io.append_ok = true) :
    (load_emergency_cases_from_csv
      ⟨[], (add_calls ⟨q0, some log_header⟩ calls).2.log⟩).1 = .ok calls.length ∧
    (load_emergency_cases_from_csv
      ⟨[], (add_calls ⟨q0, some log_header⟩ calls).2.log⟩).2.emergency_queue.Perm
      (calls.map AddCall.record) ∧
    (load_emergency_cases_from_csv
      ⟨[], (add_calls ⟨q0, some log_header⟩ calls).2.log⟩).2.log =
      (add_calls ⟨q0, some log_header⟩ calls).2.log := by
  have hlog := add_calls_log calls ⟨q0, some log_header⟩ log_header rfl
    (fun a ha => (h a ha).2.2.2.2)
  have hrec : ∀ ec ∈ calls.map AddCall.record,
      CleanText ec.patient_id ∧ CleanText ec.name ∧ CleanText ec.condition ∧
      IsInt32 ec.priority_level ∧ IsTimeT ec.timestamp := by
    intro ec hec
    obtain ⟨a, ha, rfl⟩ := List.mem_map.1 hec
    obtain ⟨c1, c2, c3, c4, -⟩ := h a ha
    have hr := convert_priority_level_range a.priority
    refine ⟨c1, c2, c3, ?_, c4⟩
    simp only [AddCall.record, EmergencyCase.create, IsInt32]
    omega
  rw [hlog]
  simp only [load_emergency_cases_from_csv, getline_log_header]
  rw [load_loop_lines (calls.map AddCall.record) _ [] 0 (le_refl _) hrec]
  refine ⟨by simp, ?_, trivial⟩
  simpa using foldl_pq_push_perm (calls.map AddCall.record) []

/-- Witness of the amended C4: the two sample admissions. -/
theorem log_roundtrip_witness :
    (∀ a ∈ sample_calls, CleanText a.patient_id ∧ CleanText a.name ∧ CleanText a.condition ∧
      IsTimeT a.now ∧ a.io.append_ok = true) ∧
    (load_emergency_cases_from_csv
      ⟨[], (add_calls ⟨[], some log_header⟩ sample_calls).2.log⟩).1 = .ok sample_calls.length ∧
    (load_emergency_cases_from_csv
      ⟨[], (add_calls ⟨[], some log_header⟩ sample_calls).2.log⟩).2.emergency_queue.Perm
      (sample_calls.map AddCall.record) ∧
    (load_emergency_cases_from_csv
      ⟨[], (add_calls ⟨[], some log_header⟩ sample_calls).2.log⟩).2.log =
      (add_calls ⟨[], some log_header⟩ sample_calls).2.log :=
  ⟨by decide, log_roundtrip sample_calls [] (by decide)⟩

/-- C11, counterexample: with one queued record whose patient id is `a`, a NUL
character and `b`, `get_all_emergency_cases` enumerates that record while the
calls of `get_next_emergency_case` return the patient id `a`: the two sequences
differ; the text left in `output` ends at the NUL. -/
theorem enumeration_differs_at_nul :
    get_all_cases 1 (run ⟨[], none⟩ nul_ops).emergency_queue = [⟨"a\x00b", "n", 1, "c", 5⟩] ∧
    pop_until_empty 2 (run ⟨[], none⟩ nul_ops) sample_out = some [⟨"a", "n", 1, "c", 5⟩] ∧
    pop_until_empty 2 (run ⟨[], none⟩ nul_ops) sample_out ≠
      some ((get_all_cases 1 (run ⟨[], none⟩ nul_ops).emergency_queue).map
        OutParams.verbatim) ∧
    (get_all_emergency_cases (run ⟨[], none⟩ nul_ops) 1000).1 =
      "[\x7b\"patient_id\":\"a".toList := by
  decide

/-- C11, amended: for every queue state, the records that
`get_all_emergency_cases` enumerates are exactly the records, in the same order
including ties, that calls of `get_next_emergency_case` repeated until the queue
is empty pop from that state, each call returning the priority level, the
timestamp and the C-string copies of the text fields of its record (the fields
themselves when no queued record holds a NUL character); every queued record is
listed exactly once; the text left in `output` is the bracketed, comma-separated
list of the objects of these records, up to its first NUL character and
`max_size - 1` characters. -/
theorem get_all_lists_pop_order (s : State) (out : OutParams) (max_size : Nat) :
    (get_all_emergency_cases s max_size).1 =
      strncpy (['['] ++ List.intercalate [',']
        ((get_all_cases (pq_size s.emergency_queue) s.emergency_queue).map (fun ec =>
          "\x7b\"patient_id\":\"".toList ++ ec.patient_id.toList ++ "\",".toList ++
          "\"name\":\"".toList ++ ec.name.toList ++ "\",".toList ++
          "\"priority_level\":".toList ++ int_to_chars ec.priority_level ++ ",".toList ++
          "\"condition\":\"".toList ++ ec.condition.toList ++ "\",".toList ++
          "\"timestamp\":".toList ++ int_to_chars ec.timestamp ++ "\x7d".toList)) ++ [']'])
        (max_size - 1) ∧
    pop_until_empty (pq_size s.emergency_queue + 1) s out =
      some ((get_all_cases (pq_size s.emergency_queue) s.emergency_queue).map
        OutParams.ofCase) ∧
    ((∀ r ∈ s.emergency_queue, r.NulFree) →
      pop_until_empty (pq_size s.emergency_queue + 1) s out =
        some ((get_all_cases (pq_size s.emergency_queue) s.emergency_queue).map
          OutParams.verbatim)) ∧
    (get_all_cases (pq_size s.emergency_queue) s.emergency_queue).Perm s.emergency_queue := by
  have hperm := get_all_cases_perm (pq_size s.emergency_queue) s.emergency_queue (le_refl _)
  have hpop := pop_until_empty_eq_cases (pq_size s.emergency_queue) s out (le_refl _)
  refine ⟨?_, hpop, ?_, hperm⟩
  · have hj := json_items_true (get_all_cases (pq_size s.emergency_queue) s.emergency_queue)
    have hc : case_json = (fun ec =>
          "\x7b\"patient_id\":\"".toList ++ ec.patient_id.toList ++ "\",".toList ++
          "\"name\":\"".toList ++ ec.name.toList ++ "\",".toList ++
          "\"priority_level\":".toList ++ int_to_chars ec.priority_level ++ ",".toList ++
          "\"condition\":\"".toList ++ ec.condition.toList ++ "\",".toList ++
          "\"timestamp\":".toList ++ int_to_chars ec.timestamp ++ "\x7d".toList) := rfl
    rw [← hc, ← hj]
    simp [get_all_emergency_cases, get_all_loop_eq]
  · intro hnf
    rw [hpop]
    congr 1
    apply List.map_congr_left
    intro r hr
    exact ofCase_of_nulFree r (hnf r (hperm.mem_iff.1 hr))

/-- Witness of the amended C11: the sample queue. -/
theorem get_all_lists_pop_order_witness :
    (∀ r ∈ sample_queue, r.NulFree) ∧
    pop_until_empty (pq_size sample_queue + 1) ⟨sample_queue, none⟩ sample_out =
      some ((get_all_cases (pq_size sample_queue) sample_queue).map OutParams.verbatim) :=
  ⟨by decide,
    (get_all_lists_pop_order ⟨sample_queue, none⟩ sample_out 64).2.2.1 (by decide)⟩

/-- C12, counterexample: loading a log whose record line holds priority 7
into the empty queue succeeds and leaves a queued record with priority level 7. -/
theorem load_breaks_priority_range :
    ValidPriorities ([] : Queue) ∧
    (load_emergency_cases_from_csv ⟨[], some "h\na,b,7,c,5\n".toList⟩).1 = .ok 1 ∧
    ¬ ValidPriorities
      (load_emergency_cases_from_csv ⟨[], some "h\na,b,7,c,5\n".toList⟩).2.emergency_queue := by
  decide

/-- C12, amended: the predicate "every queued record has its priority level in
1..4" holds for the empty queue and is preserved by `add_emergency_case`,
`get_next_emergency_case` and `clear_emergency_queue`; the load preserves it on
an absent log and on a log of a first line and well-formed record lines whose
priority is in 1..4 (it pushes whatever `int` a line holds). -/
theorem priority_range_preserved :
    ValidPriorities ([] : Queue) ∧
    (∀ (s : State) (patient_id name priority condition : String) (now : Int)
      (io : OpenOutcomes), ValidPriorities s.emergency_queue →
      ValidPriorities
        (add_emergency_case s patient_id name priority condition now io).2.emergency_queue) ∧
    (∀ (s : State) (out : OutParams), ValidPriorities s.emergency_queue →
      ValidPriorities (get_next_emergency_case s out).2.2.emergency_queue) ∧
    (∀ s : State, ValidPriorities (clear_emergency_queue s).emergency_queue) ∧
    (∀ s : State, s.log = none → ValidPriorities s.emergency_queue →
      ValidPriorities (load_emergency_cases_from_csv s).2.emergency_queue) ∧
    (∀ (s : State) (first : List Char) (lines : List RecordLine),
      s.log = some (log_text first lines) → '\n' ∉ first →
      (∀ l ∈ lines, l.WellFormed ∧ IsTimeT (decimalValue l.timestamp) ∧
        1 ≤ decimalValue l.priority ∧ decimalValue l.priority ≤ 4) →
      ValidPriorities s.emergency_queue →
      ValidPriorities (load_emergency_cases_from_csv s).2.emergency_queue) := by
  refine ⟨by intro r hr; simp at hr, validPriorities_add, validPriorities_get_next, ?_, ?_, ?_⟩
  · intro s
    have h : (clear_emergency_queue s).emergency_queue = [] := clear_loop_eq_nil _ _ (le_refl _)
    rw [h]
    intro r hr
    simp at hr
  · intro s hlog h
    simp only [load_emergency_cases_from_csv, hlog]
    exact h
  · intro s first lines hlog hf hl h
    have hl2 : ∀ l ∈ lines, l.WellFormed ∧ l.InRange := by
      intro l hm
      obtain ⟨a, b, c, d⟩ := hl l hm
      refine ⟨a, ?_, b⟩
      unfold IsInt32
      omega
    rw [load_log_text s first lines hlog hf hl2]
    refine validPriorities_perm _ _ (foldl_pq_push_perm _ _) ?_
    intro r hr
    rcases List.mem_append.1 hr with hm | hm
    · exact h r hm
    · obtain ⟨l, hlm, rfl⟩ := List.mem_map.1 hm
      exact ⟨(hl l hlm).2.2.1, (hl l hlm).2.2.2⟩

/-- Witness of the amended C12: a load of one well-formed line of priority 2
onto the sample queue. -/
theorem priority_range_preserved_witness :
    (some (log_text "h".toList [sample_line]) = some (log_text "h".toList [sample_line])) ∧
    '\n' ∉ "h".toList ∧
    (∀ l ∈ [sample_line], l.WellFormed ∧ IsTimeT (decimalValue l.timestamp) ∧
        1 ≤ decimalValue l.priority ∧ decimalValue l.priority ≤ 4) ∧
    ValidPriorities sample_queue ∧
    ValidPriorities (load_emergency_cases_from_csv
      ⟨sample_queue, some (log_text "h".toList [sample_line])⟩).2.emergency_queue :=
  ⟨rfl, by decide, by decide, by decide,
    priority_range_preserved.2.2.2.2.2
      ⟨sample_queue, some (log_text "h".toList [sample_line])⟩ "h".toList [sample_line]
      rfl (by decide) (by decide) (by decide)⟩

/-- C13: when the log is absent, is empty, or holds only the header line
(any single line, with or without its newline), the load returns 0 and leaves
the state, so the queue, as it was. -/
theorem load_without_records (q : Queue) :
    load_emergency_cases_from_csv ⟨q, none⟩ = (.ok 0, ⟨q, none⟩) ∧
    load_emergency_cases_from_csv ⟨q, some []⟩ = (.ok 0, ⟨q, some []⟩) ∧
    load_emergency_cases_from_csv ⟨q, some log_header⟩ = (.ok 0, ⟨q, some log_header⟩) ∧
    (∀ line : List Char, '\n' ∉ line →
      load_emergency_cases_from_csv ⟨q, some line⟩ = (.ok 0, ⟨q, some line⟩) ∧
      load_emergency_cases_from_csv ⟨q, some (line ++ ['\n'])⟩ =
        (.ok 0, ⟨q, some (line ++ ['\n'])⟩)) := by
  have hterm : ∀ line : List Char, '\n' ∉ line →
      load_emergency_cases_from_csv ⟨q, some (line ++ ['\n'])⟩ =
        (.ok 0, ⟨q, some (line ++ ['\n'])⟩) := by
    intro line hl
    simp only [load_emergency_cases_from_csv]
    rw [getline_delim line [] '\n' hl]
    simp [load_loop]
  refine ⟨rfl, ?_, ?_, ?_⟩
  · simp [load_emergency_cases_from_csv, getline, load_loop]
  · have e : log_header = "patient_id,name,priority_level,condition,timestamp".toList ++ ['\n'] := by
      decide
    rw [e]
    exact hterm _ (by decide)
  · intro line hl
    refine ⟨?_, hterm line hl⟩
    by_cases hne : line = []
    · subst hne
      simp [load_emergency_cases_from_csv, getline, load_loop]
    · simp only [load_emergency_cases_from_csv]
      rw [getline_no_delim line '\n' hl hne]
      simp [load_loop]

/-- Witness of C13: a one-line log without newline, onto the sample queue. -/
theorem load_without_records_witness :
    '\n' ∉ "patient_id,name".toList ∧
    load_emergency_cases_from_csv ⟨sample_queue, some "patient_id,name".toList⟩ =
      (.ok 0, ⟨sample_queue, some "patient_id,name".toList⟩) ∧
    load_emergency_cases_from_csv ⟨sample_queue, some ("patient_id,name".toList ++ ['\n'])⟩ =
      (.ok 0, ⟨sample_queue, some ("patient_id,name".toList ++ ['\n'])⟩) :=
  ⟨by decide, (load_without_records sample_queue).2.2.2 "patient_id,name".toList (by decide)⟩

/-- C15, counterexample: a log of a header line and one record line with five
comma-separated fields and decimal numbers whose priority is 2147483648 makes
the load fault (`std::stoi` throws `std::out_of_range`) with nothing pushed. -/
theorem load_faults_on_wide_number :
    wide_line.WellFormed ∧
    log_text "h".toList [wide_line] = "h\na,b,2147483648,c,7\n".toList ∧
    (load_emergency_cases_from_csv ⟨[], some (log_text "h".toList [wide_line])⟩).1 =
      .error .out_of_range ∧
    (load_emergency_cases_from_csv
      ⟨[], some (log_text "h".toList [wide_line])⟩).2.emergency_queue = [] := by
  decide

/-- C15, amended: for every log of a first line (whatever it holds) followed by
`n` well-formed record lines (five comma-separated fields, decimal priority in
the range of `int` and decimal timestamp in the range of `long`), the load
returns `n`, pushes exactly the `n` parsed records in file order, with the
stored timestamps, and keeps every record already queued, so the size afterwards
is the size before plus `n`; the log is left as it was. -/
theorem load_well_formed_lines (s : State) (first : List Char) (lines : List RecordLine)
    (hlog : s.log = some (log_text first lines)) (hf : '\n' ∉ first)
    (h : ∀ l ∈ lines, l.WellFormed ∧ l.InRange) :
    (load_emergency_cases_from_csv s).1 = .ok lines.length ∧
    (load_emergency_cases_from_csv s).2.emergency_queue =
      (lines.map RecordLine.record).foldl (pq_push CompareCases) s.emergency_queue ∧
    (load_emergency_cases_from_csv s).2.emergency_queue.Perm
      (s.emergency_queue ++ lines.map RecordLine.record) ∧
    get_emergency_queue_size (load_emergency_cases_from_csv s).2 =
      get_emergency_queue_size s + lines.length ∧
    (load_emergency_cases_from_csv s).2.log = s.log := by
  rw [load_log_text s first lines hlog hf h]
  have hp := foldl_pq_push_perm (lines.map RecordLine.record) s.emergency_queue
  refine ⟨rfl, rfl, hp, ?_, rfl⟩
  simp only [get_emergency_queue_size, pq_size]
  rw [hp.length_eq]
  simp

/-- Witness of the amended C15: one well-formed line loaded onto the sample
queue. -/
theorem load_well_formed_lines_witness :
    (some (log_text "h".toList [sample_line]) = some (log_text "h".toList [sample_line])) ∧
    '\n' ∉ "h".toList ∧ (∀ l ∈ [sample_line], l.WellFormed ∧ l.InRange) ∧
    (load_emergency_cases_from_csv
      ⟨sample_queue, some (log_text "h".toList [sample_line])⟩).1 = .ok [sample_line].length ∧
    (load_emergency_cases_from_csv
      ⟨sample_queue, some (log_text "h".toList [sample_line])⟩).2.emergency_queue =
      ([sample_line].map RecordLine.record).foldl (pq_push CompareCases) sample_queue ∧
    (load_emergency_cases_from_csv
      ⟨sample_queue, some (log_text "h".toList [sample_line])⟩).2.emergency_queue.Perm
      (sample_queue ++ [sample_line].map RecordLine.record) ∧
    get_emergency_queue_size (load_emergency_cases_from_csv
      ⟨sample_queue, some (log_text "h".toList [sample_line])⟩).2 =
      get_emergency_queue_size ⟨sample_queue, some (log_text "h".toList [sample_line])⟩ +
        [sample_line].length ∧
    (load_emergency_cases_from_csv
      ⟨sample_queue, some (log_text "h".toList [sample_line])⟩).2.log =
      some (log_text "h".toList [sample_line]) :=
  ⟨rfl, by decide, by decide,
    load_well_formed_lines ⟨sample_queue, some (log_text "h".toList [sample_line])⟩
      "h".toList [sample_line] rfl (by decide) (by decide)⟩

/-- C16: ties are not first-in first-out: four admissions that all get priority
level 2, inserted into the empty queue as A, B, C, D, are returned by repeated
calls of `get_next_emergency_case` as A, C, B, D. -/
theorem ties_not_fifo :
    ∃ calls : List AddCall,
      (∀ a ∈ calls, a.record.priority_level = 2) ∧
      ∃ outs, pop_until_empty (calls.length + 1) (add_calls fresh_state calls).2 sample_out =
          some outs ∧
        outs.map OutParams.patient_id = ["A", "C", "B", "D"] ∧
        calls.map AddCall.patient_id = ["A", "B", "C", "D"] ∧
        outs ≠ calls.map (fun a => OutParams.ofCase a.record) :=
  ⟨tied_calls, by decide,
    [OutParams.ofCase ⟨"A", "Ann", 2, "burn", 1700000001⟩,
     OutParams.ofCase ⟨"C", "Cat", 2, "burn", 1700000003⟩,
     OutParams.ofCase ⟨"B", "Ben", 2, "burn", 1700000002⟩,
     OutParams.ofCase ⟨"D", "Dan", 2, "burn", 1700000004⟩],
    by decide, by decide, by decide, by decide⟩

/-- C17, counterexample: on a log that holds a header row and one record line,
an admission for which no open succeeds leaves the log as it was, without the
new line; and one for which the open for append fails while the truncating
open and the second open for append succeed leaves only a header row and the
new line: the former content is removed and a header is added. -/
theorem add_when_append_open_fails :
    (add_emergency_case ⟨[], some sample_log⟩ "P3" "Carol" "Urgent" "fracture" 1700000002
      none_open).2.log = some sample_log ∧
    (add_emergency_case ⟨[], some sample_log⟩ "P3" "Carol" "Urgent" "fracture" 1700000002
      none_open).2.log ≠ some (sample_log ++ "P3,Carol,2,fracture,1700000002\n".toList) ∧
    (add_emergency_case ⟨[], some sample_log⟩ "P3" "Carol" "Urgent" "fracture" 1700000002
      ⟨false, true, true⟩).2.log =
      some (log_header ++ "P3,Carol,2,fracture,1700000002\n".toList) ∧
    (add_emergency_case ⟨[], some sample_log⟩ "P3" "Carol" "Urgent" "fracture" 1700000002
      ⟨false, true, true⟩).2.log ≠
      some (sample_log ++ "P3,Carol,2,fracture,1700000002\n".toList) := by
  decide

/-- C17, amended: the log is append-only when it can be opened for appending:
for every existing log content `c` and every admission, when the open for
append of line 51 succeeds the log afterwards is `c` followed by the single
line "patient_id,name,priority_level,condition,timestamp" of the record
(fields joined by commas, the two numbers as decimal numerals of their values)
and a newline; what the log held is kept in front, and no header is added. -/
theorem add_appends_one_line (s : State) (c : List Char)
    (patient_id name priority condition : String) (now : Int) (io : OpenOutcomes)
    (hlog : s.log = some c) (hopen : io.append_ok = true) :
    (add_emergency_case s patient_id name priority condition now io).2.log =
      some (c ++ (patient_id.toList ++ [','] ++ name.toList ++ [','] ++
        int_to_chars (convert_priority_level priority) ++ [','] ++ condition.toList ++ [','] ++
        int_to_chars now ++ ['\n'])) ∧
    (isDecimal (int_to_chars (convert_priority_level priority)) = true ∧
      decimalValue (int_to_chars (convert_priority_level priority)) =
        convert_priority_level priority) ∧
    (isDecimal (int_to_chars now) = true ∧ decimalValue (int_to_chars now) = now) ∧
    '\n' ∉ int_to_chars (convert_priority_level priority) ∧ '\n' ∉ int_to_chars now := by
  refine ⟨?_, int_to_chars_decimal _, int_to_chars_decimal _,
    fun hm => (int_to_chars_clean _ _ hm).2 rfl, fun hm => (int_to_chars_clean _ _ hm).2 rfl⟩
  simp [add_emergency_case, hopen, hlog, log_line, EmergencyCase.create]

/-- Witness of the amended C17: an admission on a log that holds the header row. -/
theorem add_appends_one_line_witness :
    (some log_header = some log_header) ∧ all_open.append_ok = true ∧
    (add_emergency_case ⟨sample_queue, some log_header⟩ "P3" "Carol" "Urgent" "fracture"
        1700000002 all_open).2.log =
      some (log_header ++ ("P3".toList ++ [','] ++ "Carol".toList ++ [','] ++
        int_to_chars (convert_priority_level "Urgent") ++ [','] ++ "fracture".toList ++ [','] ++
        int_to_chars 1700000002 ++ ['\n'])) ∧
    (isDecimal (int_to_chars (convert_priority_level "Urgent")) = true ∧
      decimalValue (int_to_chars (convert_priority_level "Urgent")) =
        convert_priority_level "Urgent") ∧
    (isDecimal (int_to_chars 1700000002) = true ∧
      decimalValue (int_to_chars 1700000002) = 1700000002) ∧
    '\n' ∉ int_to_chars (convert_priority_level "Urgent") ∧
    '\n' ∉ int_to_chars 1700000002 :=
  ⟨rfl, by decide,
    add_appends_one_line ⟨sample_queue, some log_header⟩ log_header "P3" "Carol" "Urgent"
      "fracture" 1700000002 all_open rfl (by decide)⟩

/-- C18: line-level round trip: for every record whose patient id, name and
condition hold neither a comma nor a newline, whose priority level is an `int`
and whose timestamp is a `time_t`, the line written for it is a text and a
newline; `std::getline` gives that text, and the field splitting and
`std::stoi` / `std::stol` of the load loop give back a record with the same
five fields; the load of a log holding the header row and that line pushes
exactly that record. -/
theorem line_roundtrip (ec : EmergencyCase) (h1 : CleanText ec.patient_id)
    (h2 : CleanText ec.name) (h3 : CleanText ec.condition) (h4 : IsInt32 ec.priority_level)
    (h5 : IsTimeT ec.timestamp) :
    ∃ body, log_line ec = body ++ ['\n'] ∧
      getline (log_line ec) '\n' = some (body, []) ∧
      parse_line body = .ok ec ∧
      load_emergency_cases_from_csv ⟨[], some (log_header ++ log_line ec)⟩ =
        (.ok 1, ⟨[ec], some (log_header ++ log_line ec)⟩) := by
  have hp := int_to_chars_decimal ec.priority_level
  have ht := int_to_chars_decimal ec.timestamp
  have hw : RecordLine.WellFormed ⟨ec.patient_id.toList, ec.name.toList,
      int_to_chars ec.priority_level, ec.condition.toList, int_to_chars ec.timestamp⟩ :=
    ⟨h1, h2, h3, hp.1, ht.1⟩
  have hr : RecordLine.InRange ⟨ec.patient_id.toList, ec.name.toList,
      int_to_chars ec.priority_level, ec.condition.toList, int_to_chars ec.timestamp⟩ := by
    unfold RecordLine.InRange
    simp only [hp.2, ht.2]
    exact ⟨h4, h5⟩
  have hrec : RecordLine.record ⟨ec.patient_id.toList, ec.name.toList,
      int_to_chars ec.priority_level, ec.condition.toList, int_to_chars ec.timestamp⟩ = ec := by
    simp only [RecordLine.record, hp.2, ht.2]
    rfl
  have hbody : log_line ec = RecordLine.text ⟨ec.patient_id.toList, ec.name.toList,
      int_to_chars ec.priority_level, ec.condition.toList, int_to_chars ec.timestamp⟩ ++
      ['\n'] := by
    simp [log_line, RecordLine.text, List.append_assoc]
  refine ⟨_, hbody, ?_, ?_, ?_⟩
  · rw [hbody]
    exact getline_delim _ [] '\n' (text_no_newline _ hw)
  · rw [parse_line_text _ hw hr, hrec]
  · simp only [load_emergency_cases_from_csv, getline_log_header]
    have e : log_line ec = log_line ec ++ [] := by simp
    obtain ⟨n, hn⟩ : ∃ n, (log_line ec).length = n + 1 :=
      ⟨(log_line ec).length - 1, by have := log_line_length_pos ec; omega⟩
    rw [hn]
    conv_lhs => rw [e]
    rw [load_loop_line ec n [] [] 0 h1 h2 h3 h4 h5, load_loop_nil, pq_push_nil]
    simp

/-- Witness of C18: the sample record. -/
theorem line_roundtrip_witness :
    CleanText sample_case.patient_id ∧ CleanText sample_case.name ∧
    CleanText sample_case.condition ∧ IsInt32 sample_case.priority_level ∧
    IsTimeT sample_case.timestamp ∧
    ∃ body, log_line sample_case = body ++ ['\n'] ∧
      getline (log_line sample_case) '\n' = some (body, []) ∧
      parse_line body = .ok sample_case ∧
      load_emergency_cases_from_csv ⟨[], some (log_header ++ log_line sample_case)⟩ =
        (.ok 1, ⟨[sample_case], some (log_header ++ log_line sample_case)⟩) :=
  ⟨by decide, by decide, by decide, by decide, by decide,
    line_roundtrip sample_case (by decide) (by decide) (by decide) (by decide) (by decide)⟩

/-- C19: with a buffer of at least 10 characters (no truncation), for every
rank in 1..4 `convert_priority_level` of the label that `get_priority_name`
produces is the rank; for each of the four labels `get_priority_name` of its
rank is the label; and for every rank outside 1..4 `get_priority_name` yields
"Unknown", which `convert_priority_level` maps to 4. -/
theorem rank_label_roundtrip (max_size : Nat) (hsize : 10 ≤ max_size) :
    (∀ r : Int, 1 ≤ r → r ≤ 4 →
      convert_priority_level (String.mk (get_priority_name r max_size)) = r) ∧
    (∀ label : String, label ∈ ["Emergency", "Urgent", "Standard", "Routine"] →
      String.mk (get_priority_name (convert_priority_level label) max_size) = label) ∧
    (∀ r : Int, r < 1 ∨ 4 < r →
      String.mk (get_priority_name r max_size) = "Unknown" ∧
      convert_priority_level (String.mk (get_priority_name r max_size)) = 4) := by
  have htake : ∀ t : String, t.length ≤ 9 → String.mk (t.toList.take (max_size - 1)) = t := by
    intro t ht
    have : t.toList.take (max_size - 1) = t.toList := by
      apply List.take_of_length_le
      have : t.toList.length = t.length := rfl
      omega
    rw [this]
    cases t
    rfl
  have e1 : String.mk (get_priority_name 1 max_size) = "Emergency" := by
    simpa [get_priority_name] using htake "Emergency" (by decide)
  have e2 : String.mk (get_priority_name 2 max_size) = "Urgent" := by
    simpa [get_priority_name] using htake "Urgent" (by decide)
  have e3 : String.mk (get_priority_name 3 max_size) = "Standard" := by
    simpa [get_priority_name] using htake "Standard" (by decide)
  have e4 : String.mk (get_priority_name 4 max_size) = "Routine" := by
    simpa [get_priority_name] using htake "Routine" (by decide)
  refine ⟨?_, ?_, ?_⟩
  · intro r h1 h4
    have hr : r = 1 ∨ r = 2 ∨ r = 3 ∨ r = 4 := by omega
    rcases hr with rfl | rfl | rfl | rfl
    · rw [e1]; decide
    · rw [e2]; decide
    · rw [e3]; decide
    · rw [e4]; decide
  · intro label hl
    simp only [List.mem_cons, List.mem_singleton, List.not_mem_nil, or_false] at hl
    rcases hl with rfl | rfl | rfl | rfl
    · rw [show convert_priority_level "Emergency" = 1 by decide, e1]
    · rw [show convert_priority_level "Urgent" = 2 by decide, e2]
    · rw [show convert_priority_level "Standard" = 3 by decide, e3]
    · rw [show convert_priority_level "Routine" = 4 by decide, e4]
  · intro r hr
    have n1 : r ≠ 1 := by omega
    have n2 : r ≠ 2 := by omega
    have n3 : r ≠ 3 := by omega
    have n4 : r ≠ 4 := by omega
    have e : String.mk (get_priority_name r max_size) = "Unknown" := by
      simpa [get_priority_name, n1, n2, n3, n4] using htake "Unknown" (by decide)
    rw [e]
    exact ⟨rfl, by decide⟩

/-- Witness of C19: a buffer of 16 characters. -/
theorem rank_label_roundtrip_witness :
    10 ≤ 16 ∧
    (∀ r : Int, 1 ≤ r → r ≤ 4 →
      convert_priority_level (String.mk (get_priority_name r 16)) = r) ∧
    (∀ label : String, label ∈ ["Emergency", "Urgent", "Standard", "Routine"] →
      String.mk (get_priority_name (convert_priority_level label) 16) = label) ∧
    (∀ r : Int, r < 1 ∨ 4 < r →
      String.mk (get_priority_name r 16) = "Unknown" ∧
      convert_priority_level (String.mk (get_priority_name r 16)) = 4) :=
  ⟨by decide, rank_label_roundtrip 16 (by decide)⟩

/-- C14, counterexample: a record line with six fields and a record line
whose priority and timestamp fields are not numerals ("3abc", "7x") are both
loaded without a fault: the load returns the count 1. -/
theorem load_accepts_malformed_lines :
    (field_count "a,b,3,c,5,extra".toList = 6 ∧
      (load_emergency_cases_from_csv ⟨[], some "h\na,b,3,c,5,extra\n".toList⟩).1 = .ok 1) ∧
    (field_count "a,b,3abc,c,7x".toList = 5 ∧ isDecimal "3abc".toList = false ∧
      isDecimal "7x".toList = false ∧
      (load_emergency_cases_from_csv ⟨[], some "h\na,b,3abc,c,7x\n".toList⟩).1 = .ok 1) := by
  decide

/-- C14, amended: for every log whose record lines (after the first line)
include a line with fewer than five comma-separated fields, or whose priority
or timestamp field does not begin, after white space and an optional sign,
with a digit, the load raises a numeric-parse fault (`std::stoi` / `std::stol`
throws) instead of returning a count. -/
theorem load_faults_on_malformed_line (q : Queue) (first before bad tail : List Char)
    (hfirst : '\n' ∉ first) (hstart : AtLineStart before) (hbad : '\n' ∉ bad)
    (htail : (tail = [] ∧ bad ≠ []) ∨ ∃ rest, tail = '\n' :: rest)
    (hmal : field_count bad < 5 ∨ begins_with_number (priority_field bad) = false ∨
      begins_with_number (timestamp_field bad) = false) :
    ∃ e, (load_emergency_cases_from_csv
      ⟨q, some (first ++ '\n' :: (before ++ bad ++ tail))⟩).1 = .error e := by
  simp only [load_emergency_cases_from_csv]
  rw [getline_delim first _ '\n' hfirst]
  exact load_loop_faults bad tail hbad htail (parse_line_faults bad hmal) before.length before
    (le_refl _) hstart _ q 0 (le_refl _)

/-- Witness of the amended C14: a log whose second record line has two fields. -/
theorem load_faults_on_malformed_line_witness :
    '\n' ∉ "h".toList ∧ AtLineStart "a,b,1,c,5\n".toList ∧ '\n' ∉ "x,y".toList ∧
    (("\nz,w,2,v,6\n".toList = [] ∧ "x,y".toList ≠ []) ∨
      ∃ rest, "\nz,w,2,v,6\n".toList = '\n' :: rest) ∧
    (field_count "x,y".toList < 5 ∨ begins_with_number (priority_field "x,y".toList) = false ∨
      begins_with_number (timestamp_field "x,y".toList) = false) ∧
    ∃ e, (load_emergency_cases_from_csv
      ⟨sample_queue, some ("h".toList ++ '\n' ::
        ("a,b,1,c,5\n".toList ++ "x,y".toList ++ "\nz,w,2,v,6\n".toList))⟩).1 = .error e :=
  ⟨by decide, by decide, by decide, Or.inr ⟨"z,w,2,v,6\n".toList, rfl⟩, Or.inl (by decide),
    load_faults_on_malformed_line sample_queue "h".toList "a,b,1,c,5\n".toList "x,y".toList
      "\nz,w,2,v,6\n".toList (by decide) (by decide) (by decide)
      (Or.inr ⟨"z,w,2,v,6\n".toList, rfl⟩) (Or.inl (by decide))⟩

end EmergencyQueue
